import Mathlib

/-!
# Clang-tutorial: the two Rewriter-based source-to-source tools

A shallow embedding of `src/add_text_via_rewriter.cpp` and `src/source2source.cpp`.

* The visitors (`VisitStmt`, `VisitFunctionDecl`), the consumer (`HandleTopLevelDecl`) and
  `main` are translated from the two source files; each tool lives in its own namespace.
* The front end supplies the syntax tree.  A node carries exactly the attributes the
  visitors read: `getExprLoc`, `getLocStart`, `getLocEnd`, the operator kind, the parameter
  list, `getRParenLoc`, `getSourceRange().getBegin()`, the declared name and the result type.
* The rewriting library (`Rewriter`, `RewriteBuffer`, `RecursiveASTVisitor`) is not part of
  `src/`; it is modelled after the specification's edit buffer and the library's documented
  interface.  Only the main file is modelled: a location is either an offset in the main
  file or a location inside a preprocessor expansion, which is not rewritable.
* A run that the C++ program does not survive (a null `RewriteBuffer*` that is
  dereferenced, an insertion offset outside the buffer) is `none`.
-/

namespace ClangTutorial

/-! ## Source locations -/

/-- A `SourceLocation`: an offset into the main file, or a location that lies inside a
preprocessor expansion (`isMacroID()`), which has no literal source text of its own. -/
inductive SourceLocation where
  | file (offset : Nat)
  | expansion (offset : Nat)
deriving DecidableEq, Repr

/-- `SourceLocation::getLocWithOffset(n)`: the same kind of location, `n` further on. -/
def SourceLocation.getLocWithOffset : SourceLocation → Nat → SourceLocation
  | .file o, n => .file (o + n)
  | .expansion o, n => .expansion (o + n)

/-! ## The edit buffer -/

/-- Modelled from the spec: the edit buffer (`clang::RewriteBuffer`, whose code is not under
`src/`).  It keeps the unmodified input and the pending insertions, each tagged with its
offset in the input.  The list is in buffer order: the fragments of one offset appear in it
in the order in which they are written out. -/
structure RewriteBuffer where
  Original : List Char
  Fragments : List (Nat × List Char)
deriving DecidableEq, Repr

/-- Modelled from the spec: the accumulated fragment sequence of one offset, in buffer
order, as one text. -/
def RewriteBuffer.fragmentsAt (B : RewriteBuffer) (o : Nat) : List Char :=
  ((B.Fragments.filter (fun e => e.1 = o)).map Prod.snd).flatten

/-- Modelled from the spec: `insert(offset, text, placement)` of the edit buffer
(`RewriteBuffer::InsertText(OrigOffset, Str, InsertAfter)`).  The text goes after
(`InsertAfter = true`, AFTER_EXISTING) or before (`InsertAfter = false`, BEFORE_EXISTING) the
fragments already present at that offset; fragments of other offsets are not affected.  An
offset outside `[0, length]` is an error. -/
def RewriteBuffer.InsertText (B : RewriteBuffer) (OrigOffset : Nat) (Str : List Char)
    (InsertAfter : Bool) : Option RewriteBuffer :=
  if OrigOffset ≤ B.Original.length then
    some ⟨B.Original,
      if InsertAfter then B.Fragments ++ [(OrigOffset, Str)]
      else (OrigOffset, Str) :: B.Fragments⟩
  else none

/-- Modelled from the spec: the splice that `materialize` performs.  Offsets are walked in
ascending order starting at `o`; at each offset the accumulated fragments `F o` are written
out, then the original byte of that offset is copied. -/
def splice (F : Nat → List Char) : Nat → List Char → List Char
  | o, [] => F o
  | o, c :: cs => F o ++ c :: splice F (o + 1) cs

/-- Modelled from the spec: `materialize`, the text between `RewriteBuf->begin()` and
`RewriteBuf->end()`. -/
def RewriteBuffer.materialize (B : RewriteBuffer) : List Char :=
  splice B.fragmentsAt 0 B.Original

/-- The splice with every output byte tagged: `true` marks a byte of an inserted fragment,
`false` a byte copied from the original. -/
def spliceTagged (F : Nat → List Char) : Nat → List Char → List (Bool × Char)
  | o, [] => (F o).map (fun c => (true, c))
  | o, c :: cs => (F o).map (fun c => (true, c)) ++ (false, c) :: spliceTagged F (o + 1) cs

/-- The materialized text with the provenance of every byte. -/
def RewriteBuffer.materializeTagged (B : RewriteBuffer) : List (Bool × Char) :=
  spliceTagged B.fragmentsAt 0 B.Original

/-! ## The rewriter -/

/-- Line table of the source manager: the offsets, after offset `Offs`, at which a new line
starts.  A line ends at a line feed or carriage return; the two-byte ends CR LF and LF CR
count once. -/
def ComputeLineNumbers : Nat → List Char → List Nat
  | _, [] => []
  | Offs, [c] => if c = '\n' ∨ c = '\r' then [Offs + 1] else []
  | Offs, c :: c2 :: rest =>
    if c = '\n' ∨ c = '\r' then
      if (c2 = '\n' ∨ c2 = '\r') ∧ c ≠ c2 then
        (Offs + 2) :: ComputeLineNumbers (Offs + 2) rest
      else (Offs + 1) :: ComputeLineNumbers (Offs + 1) (c2 :: rest)
    else ComputeLineNumbers (Offs + 1) (c2 :: rest)

/-- Offset at which the line holding offset `StartOffs` starts (`SourceLineCache[lineNo]`). -/
def lineOffs (MB : List Char) (StartOffs : Nat) : Nat :=
  ((0 :: ComputeLineNumbers 0 MB).filter (fun l => l ≤ StartOffs)).foldl max 0

/-- Whitespace other than a line feed: space, tab, form feed, vertical tab, carriage
return. -/
def isWhitespaceExceptNL (c : Char) : Bool :=
  c = ' ' || c = '\t' || c = '\x0c' || c = '\x0b' || c = '\r'

/-- The whitespace at the start of the line that holds offset `StartOffs`. -/
def indentSpace (MB : List Char) (StartOffs : Nat) : List Char :=
  (MB.drop (lineOffs MB StartOffs)).takeWhile isWhitespaceExceptNL

/-- The text `Str` with the indentation `indent` added after each of its line feeds: the
effect of splitting `Str` at its line feeds and joining the pieces with a line feed followed
by `indent`. -/
def indentLines (indent : List Char) (Str : List Char) : List Char :=
  Str.flatMap (fun c => if c = '\n' then '\n' :: indent else [c])

/-- The `Rewriter`: the source manager's copy of the main file, and the rewrite buffer of
the main file, which exists only once the file has been modified. -/
structure Rewriter where
  SourceMgr : List Char
  RewriteBuffers : Option RewriteBuffer
deriving DecidableEq, Repr

/-- `Rewriter::getEditBuffer`: the rewrite buffer of the main file; when there is none yet it
starts out as a copy of the unmodified input. -/
def Rewriter.getEditBuffer (R : Rewriter) : RewriteBuffer :=
  match R.RewriteBuffers with
  | some B => B
  | none => ⟨R.SourceMgr, []⟩

/-- `Rewriter::getRewriteBufferFor`, documented by the library as "return the rewrite buffer
for the specified FileID; if no modification has been made to it, return null". -/
def Rewriter.getRewriteBufferFor (R : Rewriter) : Option RewriteBuffer :=
  R.RewriteBuffers

/-- The text that `Rewriter::InsertText` hands to the edit buffer for `Str` at offset
`StartOffs`.  The library documents its fourth parameter as "if true new lines in the string
are indented using the indentation of the source line in position Loc": with
`indentNewLines` the indentation of the source line at that offset is added after every line
feed of `Str`; otherwise the text is `Str` itself. -/
def Rewriter.indented (R : Rewriter) (StartOffs : Nat) (Str : List Char)
    (indentNewLines : Bool) : List Char :=
  if indentNewLines then indentLines (indentSpace R.SourceMgr StartOffs) Str else Str

/-- Modelled from the spec: resolving a location and inserting at it
(`Rewriter::InsertText(Loc, Str, InsertAfter, indentNewLines)`, whose code is not under
`src/`).  A location that is not rewritable (not a file location) makes the call report
failure, `true`, and do nothing.  Otherwise the text, indented on request, is inserted in
the edit buffer at the location's offset and the call reports `false`. -/
def Rewriter.InsertText (R : Rewriter) (Loc : SourceLocation) (Str : String)
    (InsertAfter indentNewLines : Bool) : Option (Bool × Rewriter) :=
  match Loc with
  | .expansion _ => some (true, R)
  | .file StartOffs =>
    match R.getEditBuffer.InsertText StartOffs
        (R.indented StartOffs Str.data indentNewLines) InsertAfter with
    | none => none
    | some B => some (false, ⟨R.SourceMgr, some B⟩)

/-! ## The syntax tree -/

/-- Binary operator kinds (`BinaryOperatorKind`). -/
inductive BinaryOperatorKind where
  | BO_PtrMemD | BO_PtrMemI
  | BO_Mul | BO_Div | BO_Rem
  | BO_Add | BO_Sub
  | BO_Shl | BO_Shr
  | BO_LT | BO_GT | BO_LE | BO_GE
  | BO_EQ | BO_NE
  | BO_And | BO_Xor | BO_Or
  | BO_LAnd | BO_LOr
  | BO_Assign | BO_MulAssign | BO_DivAssign | BO_RemAssign | BO_AddAssign | BO_SubAssign
  | BO_ShlAssign | BO_ShrAssign | BO_AndAssign | BO_XorAssign | BO_OrAssign
  | BO_Comma
deriving DecidableEq, Repr

/-- `BinaryOperator::isAdditiveOp()`. -/
def BinaryOperatorKind.isAdditiveOp : BinaryOperatorKind → Bool
  | .BO_Add | .BO_Sub => true
  | _ => false

/-- `BinaryOperator::isMultiplicativeOp()`. -/
def BinaryOperatorKind.isMultiplicativeOp : BinaryOperatorKind → Bool
  | .BO_Mul | .BO_Div | .BO_Rem => true
  | _ => false

/-- The locations a statement or expression node answers with. -/
structure StmtLocs where
  LocStart : SourceLocation
  LocEnd : SourceLocation
  ExprLoc : SourceLocation
deriving DecidableEq, Repr

/-- The attributes of a function declaration that the visitors read. -/
structure FunctionInfo where
  Name : String
  ResultType : String
  RangeBegin : SourceLocation
  RParenLoc : SourceLocation
  isThisDeclarationADefinition : Bool
deriving DecidableEq, Repr

mutual
/-- Statements and expressions.  `Other` is any node that is neither a binary operator, an
if statement nor a declaration statement, with its children in source order. -/
inductive Stmt where
  | BinaryOperator (locs : StmtLocs) (Opc : BinaryOperatorKind) (LHS RHS : Stmt)
  | IfStmt (locs : StmtLocs) (Cond Then : Stmt) (Else : Option Stmt)
  | DeclStmt (locs : StmtLocs) (decls : List Decl)
  | Other (locs : StmtLocs) (children : List Stmt)
/-- Declarations.  A function declaration has its parameter declarations and the body that
`getBody()` answers with (the body of whichever redeclaration defines the function).
`Other` is any other declaration, with its child expressions (initialisers, default
arguments) and its member declarations. -/
inductive Decl where
  | FunctionDecl (info : FunctionInfo) (Params : List Decl) (Body : Option Stmt)
  | Other (stmts : List Stmt) (decls : List Decl)
end

/-- The location record of a node. -/
def Stmt.locs : Stmt → StmtLocs
  | .BinaryOperator l _ _ _ => l
  | .IfStmt l _ _ _ => l
  | .DeclStmt l _ => l
  | .Other l _ => l

/-- `Expr::getExprLoc()`. -/
def Stmt.getExprLoc (s : Stmt) : SourceLocation := s.locs.ExprLoc

/-- `Stmt::getLocStart()`. -/
def Stmt.getLocStart (s : Stmt) : SourceLocation := s.locs.LocStart

/-- `Stmt::getLocEnd()`. -/
def Stmt.getLocEnd (s : Stmt) : SourceLocation := s.locs.LocEnd

/-! ## The recursive visitor -/

/-- The two callbacks a tool overrides in `RecursiveASTVisitor`.  Each answers with the
flag that tells the traversal to go on, and the rewriter it has written to. -/
structure ASTVisitor where
  VisitStmt : Rewriter → Stmt → Option (Bool × Rewriter)
  VisitFunctionDecl :
    Rewriter → FunctionInfo → List Decl → Option Stmt → Option (Bool × Rewriter)

/-- One step of a traversal (`TRY_TO`): go on with `k` unless the step before failed or
asked to stop. -/
def TRY_TO (r : Option (Bool × Rewriter)) (k : Rewriter → Option (Bool × Rewriter)) :
    Option (Bool × Rewriter) :=
  match r with
  | none => none
  | some (false, R) => some (false, R)
  | some (true, R) => k R

mutual
/-- `RecursiveASTVisitor::TraverseStmt`: the node before its children (pre-order), the
children from left to right. -/
def TraverseStmt (V : ASTVisitor) : Stmt → Rewriter → Option (Bool × Rewriter)
  | .BinaryOperator l Opc LHS RHS, R =>
    TRY_TO (V.VisitStmt R (.BinaryOperator l Opc LHS RHS)) fun R =>
    TRY_TO (TraverseStmt V LHS R) fun R => TraverseStmt V RHS R
  | .IfStmt l Cond Then Else, R =>
    TRY_TO (V.VisitStmt R (.IfStmt l Cond Then Else)) fun R =>
    TRY_TO (TraverseStmt V Cond R) fun R =>
    TRY_TO (TraverseStmt V Then R) fun R => TraverseOptStmt V Else R
  | .DeclStmt l decls, R =>
    TRY_TO (V.VisitStmt R (.DeclStmt l decls)) fun R => TraverseDecls V decls R
  | .Other l children, R =>
    TRY_TO (V.VisitStmt R (.Other l children)) fun R => TraverseStmts V children R
/-- `TraverseStmt` on a pointer that may be null. -/
def TraverseOptStmt (V : ASTVisitor) : Option Stmt → Rewriter → Option (Bool × Rewriter)
  | none, R => some (true, R)
  | some s, R => TraverseStmt V s R
/-- The children of a node, from left to right. -/
def TraverseStmts (V : ASTVisitor) : List Stmt → Rewriter → Option (Bool × Rewriter)
  | [], R => some (true, R)
  | s :: ss, R => TRY_TO (TraverseStmt V s R) fun R => TraverseStmts V ss R
/-- `RecursiveASTVisitor::TraverseDecl`.  A function declaration is visited, then its
parameters are traversed, then its body when this declaration is the definition. -/
def TraverseDecl (V : ASTVisitor) : Decl → Rewriter → Option (Bool × Rewriter)
  | .FunctionDecl info Params Body, R =>
    TRY_TO (V.VisitFunctionDecl R info Params Body) fun R =>
    TRY_TO (TraverseDecls V Params R) fun R =>
    if info.isThisDeclarationADefinition then TraverseOptStmt V Body R else some (true, R)
  | .Other stmts decls, R =>
    TRY_TO (TraverseStmts V stmts R) fun R => TraverseDecls V decls R
/-- Declarations in source order. -/
def TraverseDecls (V : ASTVisitor) : List Decl → Rewriter → Option (Bool × Rewriter)
  | [], R => some (true, R)
  | d :: ds, R => TRY_TO (TraverseDecl V d R) fun R => TraverseDecls V ds R
end

/-- `MyASTConsumer::HandleTopLevelDecl` (the same in both tools): every declaration of the
group is traversed; what `TraverseDecl` answers is not looked at. -/
def HandleTopLevelDecl (V : ASTVisitor) : List Decl → Rewriter → Option Rewriter
  | [], R => some R
  | b :: DR, R =>
    match TraverseDecl V b R with
    | none => none
    | some (_, R) => HandleTopLevelDecl V DR R

/-- `clang::ParseAST`: the consumer is handed every top-level declaration group in source
order. -/
def ParseAST (V : ASTVisitor) : List (List Decl) → Rewriter → Option Rewriter
  | [], R => some R
  | DR :: rest, R =>
    match HandleTopLevelDecl V DR R with
    | none => none
    | some R => ParseAST V rest R

/-- The text a rewriter would print: `string(RewriteBuf->begin(), RewriteBuf->end())` for
`RewriteBuf = getRewriteBufferFor(main file)`.  The pointer is dereferenced without a test,
so a null pointer ends the run. -/
def Rewriter.text (R : Rewriter) : Option String :=
  match R.getRewriteBufferFor with
  | none => none
  | some RewriteBuf => some (String.mk RewriteBuf.materialize)

/-- A rewriter over the given main file with no modification made yet
(`Rewriter TheRewriter; TheRewriter.setSourceMgr(...)`). -/
def Rewriter.setSourceMgr (file : String) : Rewriter := ⟨file.data, none⟩

/-- A leaf expression (an identifier, a literal) spelled in the main file from offset
`first` to offset `last`. -/
def leafExpr (first last : Nat) : Stmt :=
  .Other ⟨.file first, .file last, .file first⟩ []

/-! ## add_text_via_rewriter.cpp -/

namespace add_text_via_rewriter

/-- `MyASTVisitor::VisitStmt` of `add_text_via_rewriter.cpp`. -/
def VisitStmt (TheRewriter : Rewriter) (s : Stmt) : Option (Bool × Rewriter) :=
  match s with
  | .BinaryOperator _ Opc LHS RHS =>
    (if Opc.isAdditiveOp then
        let sl := RHS.getExprLoc.getLocWithOffset 1
        (TheRewriter.InsertText sl " * d" true true).map Prod.snd
      else some TheRewriter).bind fun TheRewriter =>
    (if Opc.isMultiplicativeOp then
        let sl := LHS.getExprLoc
        ((TheRewriter.InsertText sl "(" true true).map Prod.snd).bind fun TheRewriter =>
        let sl := RHS.getExprLoc.getLocWithOffset 1
        (TheRewriter.InsertText sl ") + d" true true).map Prod.snd
      else some TheRewriter).bind fun TheRewriter =>
    some (true, TheRewriter)
  | _ => some (true, TheRewriter)

/-- `MyASTVisitor::VisitFunctionDecl` of `add_text_via_rewriter.cpp`. -/
def VisitFunctionDecl (TheRewriter : Rewriter) (f : FunctionInfo) (Params : List Decl)
    (_Body : Option Stmt) : Option (Bool × Rewriter) :=
  let sl := f.RParenLoc
  (if Params.length = 0 then
      (TheRewriter.InsertText sl "bool b" true true).map Prod.snd
    else
      (TheRewriter.InsertText sl ", bool b" true true).map Prod.snd).bind fun TheRewriter =>
  some (true, TheRewriter)

/-- The visitor class of `add_text_via_rewriter.cpp`. -/
def MyASTVisitor : ASTVisitor := ⟨VisitStmt, VisitFunctionDecl⟩

/-- `main` of `add_text_via_rewriter.cpp`: what the tool writes to standard output for the
main file `file` parsed to the top-level declaration groups `TU`. -/
def main (file : String) (TU : List (List Decl)) : Option String :=
  match ParseAST MyASTVisitor TU (Rewriter.setSourceMgr file) with
  | none => none
  | some TheRewriter =>
    match TheRewriter.text with
    | none => none
    | some out => some ("++++++++++++++++++++++++++++++++++++++++++++++" ++ "\n" ++ out)

end add_text_via_rewriter

/-! ## source2source.cpp -/

namespace source2source

/-- `MyASTVisitor::VisitStmt` of `source2source.cpp`. -/
def VisitStmt (TheRewriter : Rewriter) (s : Stmt) : Option (Bool × Rewriter) :=
  match s with
  | .IfStmt _ _ Then Else =>
    ((TheRewriter.InsertText Then.getLocStart "// the 'if' part\n" true true).map
      Prod.snd).bind fun TheRewriter =>
    (match Else with
      | some Else =>
        (TheRewriter.InsertText Else.getLocStart "// the 'else' part\n" true true).map Prod.snd
      | none => some TheRewriter).bind fun TheRewriter =>
    some (true, TheRewriter)
  | _ => some (true, TheRewriter)

/-- `MyASTVisitor::VisitFunctionDecl` of `source2source.cpp`. -/
def VisitFunctionDecl (TheRewriter : Rewriter) (f : FunctionInfo) (_Params : List Decl)
    (Body : Option Stmt) : Option (Bool × Rewriter) :=
  match Body with
  | some FuncBody =>
    let TypeStr := f.ResultType
    let FuncName := f.Name
    let SSBefore := "// Begin function " ++ FuncName ++ " returning " ++ TypeStr ++ "\n"
    let ST := f.RangeBegin
    ((TheRewriter.InsertText ST SSBefore true true).map Prod.snd).bind fun TheRewriter =>
    let SSAfter := "\n// End function " ++ FuncName ++ "\n"
    let ST := FuncBody.getLocEnd.getLocWithOffset 1
    ((TheRewriter.InsertText ST SSAfter true true).map Prod.snd).bind fun TheRewriter =>
    some (true, TheRewriter)
  | none => some (true, TheRewriter)

/-- The visitor class of `source2source.cpp`. -/
def MyASTVisitor : ASTVisitor := ⟨VisitStmt, VisitFunctionDecl⟩

/-- `main` of `source2source.cpp`: what the tool writes to standard output for the main file
`file` parsed to the top-level declaration groups `TU`. -/
def main (file : String) (TU : List (List Decl)) : Option String :=
  match ParseAST MyASTVisitor TU (Rewriter.setSourceMgr file) with
  | none => none
  | some TheRewriter => TheRewriter.text

end source2source

/-! ## Runs of insertions -/

/-- A run of `TheRewriter.InsertText(Loc, Str, true, true);` statements, the form in which
both tools emit their edits: each pair is a location and a text; what a call reports is not
looked at. -/
def Rewriter.InsertTexts (R : Rewriter) : List (SourceLocation × String) → Option Rewriter
  | [] => some R
  | e :: rest =>
    match R.InsertText e.1 e.2 true true with
    | none => none
    | some p => Rewriter.InsertTexts p.2 rest

/-- The text that the edit buffer of the main file `MB` receives for one such call: the
call's text with the indentation of the source line at the location added after each line
feed; nothing for a location that is not rewritable. -/
def insertedText (MB : List Char) (e : SourceLocation × String) : List Char :=
  match e.1 with
  | .file o => indentLines (indentSpace MB o) e.2.data
  | .expansion _ => []

/-- The part of the materialized text in front of the splice point `o`: the original bytes
before offset `o` with the fragments of the offsets before `o`. -/
def RewriteBuffer.outputBefore (B : RewriteBuffer) (o : Nat) : List Char :=
  splice (fun x => if x < o then B.fragmentsAt x else []) 0 (B.Original.take o)

/-- The part of the materialized text behind the fragments of the splice point `o`: the
original bytes from offset `o` on with the fragments of the offsets after `o`. -/
def RewriteBuffer.outputFrom (B : RewriteBuffer) (o : Nat) : List Char :=
  splice (fun x => if o < x then B.fragmentsAt x else []) o (B.Original.drop o)

/-! ## Trees that no rule matches -/

mutual
/-- No node at or below the statement is matched: `mS` tells the statements the statement
rule acts on, `mF` the function declarations the declaration rule acts on. -/
def Stmt.noMatch (mS : Stmt → Bool) (mF : FunctionInfo → List Decl → Option Stmt → Bool) :
    Stmt → Bool
  | .BinaryOperator l Opc LHS RHS =>
    !mS (.BinaryOperator l Opc LHS RHS) && Stmt.noMatch mS mF LHS && Stmt.noMatch mS mF RHS
  | .IfStmt l Cond Then Else =>
    !mS (.IfStmt l Cond Then Else) && Stmt.noMatch mS mF Cond && Stmt.noMatch mS mF Then &&
      Stmt.noMatchOpt mS mF Else
  | .DeclStmt l decls => !mS (.DeclStmt l decls) && Decl.noMatchList mS mF decls
  | .Other l children => !mS (.Other l children) && Stmt.noMatchList mS mF children
/-- The same for a statement that may be absent. -/
def Stmt.noMatchOpt (mS : Stmt → Bool) (mF : FunctionInfo → List Decl → Option Stmt → Bool) :
    Option Stmt → Bool
  | none => true
  | some s => Stmt.noMatch mS mF s
/-- The same for a list of statements. -/
def Stmt.noMatchList (mS : Stmt → Bool) (mF : FunctionInfo → List Decl → Option Stmt → Bool) :
    List Stmt → Bool
  | [] => true
  | s :: ss => Stmt.noMatch mS mF s && Stmt.noMatchList mS mF ss
/-- The same for a declaration; the body counts where the traversal enters it. -/
def Decl.noMatch (mS : Stmt → Bool) (mF : FunctionInfo → List Decl → Option Stmt → Bool) :
    Decl → Bool
  | .FunctionDecl info Params Body =>
    !mF info Params Body && Decl.noMatchList mS mF Params &&
      (if info.isThisDeclarationADefinition then Stmt.noMatchOpt mS mF Body else true)
  | .Other stmts decls => Stmt.noMatchList mS mF stmts && Decl.noMatchList mS mF decls
/-- The same for a list of declarations. -/
def Decl.noMatchList (mS : Stmt → Bool) (mF : FunctionInfo → List Decl → Option Stmt → Bool) :
    List Decl → Bool
  | [] => true
  | d :: ds => Decl.noMatch mS mF d && Decl.noMatchList mS mF ds
end

/-- The statements the rule of `add_text_via_rewriter.cpp` acts on: binary operators that are
additive or multiplicative. -/
def add_text_via_rewriter.matchesStmt : Stmt → Bool
  | .BinaryOperator _ Opc _ _ => Opc.isAdditiveOp || Opc.isMultiplicativeOp
  | _ => false

/-- The function declarations the rule of `add_text_via_rewriter.cpp` acts on: all. -/
def add_text_via_rewriter.matchesFunctionDecl (_f : FunctionInfo) (_Params : List Decl)
    (_Body : Option Stmt) : Bool := true

/-- The statements the rule of `source2source.cpp` acts on: if statements. -/
def source2source.matchesStmt : Stmt → Bool
  | .IfStmt _ _ _ _ => true
  | _ => false

/-- The function declarations the rule of `source2source.cpp` acts on: those with a body. -/
def source2source.matchesFunctionDecl (_f : FunctionInfo) (_Params : List Decl)
    (Body : Option Stmt) : Bool := Body.isSome

/-! ## Theorems -/

theorem isMultiplicativeOp_of_isAdditiveOp (Opc : BinaryOperatorKind)
    (h : Opc.isAdditiveOp = true) : Opc.isMultiplicativeOp = false := by
  cases Opc <;> simp_all [BinaryOperatorKind.isAdditiveOp, BinaryOperatorKind.isMultiplicativeOp]

theorem isAdditiveOp_of_isMultiplicativeOp (Opc : BinaryOperatorKind)
    (h : Opc.isMultiplicativeOp = true) : Opc.isAdditiveOp = false := by
  cases Opc <;> simp_all [BinaryOperatorKind.isAdditiveOp, BinaryOperatorKind.isMultiplicativeOp]

theorem indentLines_of_not_mem (indent Str : List Char) (h : '\n' ∉ Str) :
    indentLines indent Str = Str := by
  induction Str with
  | nil => rfl
  | cons c cs ih =>
    simp only [List.mem_cons, not_or] at h
    have hc : c ≠ '\n' := fun e => h.1 e.symm
    have := ih h.2
    simp only [indentLines, List.flatMap_cons] at this ⊢
    simp [hc, this]

theorem InsertText_file_of_not_mem (R : Rewriter) (o : Nat) (Str : String)
    (InsertAfter indentNewLines : Bool) (h : '\n' ∉ Str.data) :
    R.InsertText (.file o) Str InsertAfter indentNewLines =
      (R.getEditBuffer.InsertText o Str.data InsertAfter).map
        (fun B => (false, ⟨R.SourceMgr, some B⟩)) := by
  have hi : R.indented o Str.data indentNewLines = Str.data := by
    unfold Rewriter.indented
    split
    · exact indentLines_of_not_mem _ _ h
    · rfl
  unfold Rewriter.InsertText
  simp only [hi]
  cases R.getEditBuffer.InsertText o Str.data InsertAfter <;> rfl

/-- C1, as amended: on a binary operator that is additive and whose right operand answers
`getExprLoc()` with offset `r` of the main file, `VisitStmt` of `add_text_via_rewriter.cpp`
makes exactly one edit: the text `" * d"` goes into the edit buffer at offset `r + 1` with
`InsertAfter = true` (AFTER_EXISTING).  That is the operand's start offset plus one whenever
the operand's expression location is its start.  For the source text `a + b`, right operand
at offset 4, the traversal of the node materializes `a + b * d`. -/
theorem additive_rewrite :
    (∀ (R : Rewriter) (l : StmtLocs) (Opc : BinaryOperatorKind) (LHS RHS : Stmt) (r : Nat),
      Opc.isAdditiveOp = true → RHS.getExprLoc = .file r →
      add_text_via_rewriter.VisitStmt R (.BinaryOperator l Opc LHS RHS) =
        (R.getEditBuffer.InsertText (r + 1) " * d".data true).map
          (fun B => (true, ⟨R.SourceMgr, some B⟩))) ∧
    (∀ (R : Rewriter) (l : StmtLocs) (Opc : BinaryOperatorKind) (LHS RHS : Stmt) (r : Nat),
      Opc.isAdditiveOp = true → RHS.getExprLoc = RHS.getLocStart →
      RHS.getLocStart = .file r →
      add_text_via_rewriter.VisitStmt R (.BinaryOperator l Opc LHS RHS) =
        (R.getEditBuffer.InsertText (r + 1) " * d".data true).map
          (fun B => (true, ⟨R.SourceMgr, some B⟩))) ∧
    ((TraverseStmt add_text_via_rewriter.MyASTVisitor
        (.BinaryOperator ⟨.file 0, .file 4, .file 2⟩ .BO_Add (leafExpr 0 0) (leafExpr 4 4))
        (Rewriter.setSourceMgr "a + b")).bind fun p => p.2.text) = some "a + b * d" := by
  have key : ∀ (R : Rewriter) (l : StmtLocs) (Opc : BinaryOperatorKind) (LHS RHS : Stmt)
      (r : Nat), Opc.isAdditiveOp = true → RHS.getExprLoc = .file r →
      add_text_via_rewriter.VisitStmt R (.BinaryOperator l Opc LHS RHS) =
        (R.getEditBuffer.InsertText (r + 1) " * d".data true).map
          (fun B => (true, ⟨R.SourceMgr, some B⟩)) := by
    intro R l Opc LHS RHS r hadd hr
    have hmul := isMultiplicativeOp_of_isAdditiveOp Opc hadd
    have e0 : ∀ (R : Rewriter) (o : Nat), R.InsertText (.file o) " * d" true true = _ :=
      fun R o => InsertText_file_of_not_mem R o _ _ _ (by decide)
    simp only [add_text_via_rewriter.VisitStmt, hadd, hmul, hr,
      SourceLocation.getLocWithOffset, Bool.false_eq_true, if_false, if_true,
      Option.some_bind, e0]
    cases R.getEditBuffer.InsertText (r + 1) " * d".data true <;> rfl
  exact ⟨key, fun R l Opc LHS RHS r hadd he hs => key R l Opc LHS RHS r hadd (he.trans hs),
    by decide⟩

/-- C1, as stated, fails: in `a + b * c` the right operand `b * c` starts at offset 4, but its
expression location is the `*` at offset 6, and the text is inserted at offset 7, not 5. -/
theorem additive_edit_not_at_operand_start :
    (Stmt.BinaryOperator ⟨.file 4, .file 8, .file 6⟩ .BO_Mul (leafExpr 4 4)
        (leafExpr 8 8)).getLocStart = .file 4 ∧
    add_text_via_rewriter.VisitStmt (Rewriter.setSourceMgr "a + b * c")
        (.BinaryOperator ⟨.file 0, .file 8, .file 2⟩ .BO_Add (leafExpr 0 0)
          (.BinaryOperator ⟨.file 4, .file 8, .file 6⟩ .BO_Mul (leafExpr 4 4) (leafExpr 8 8)))
      = ((Rewriter.setSourceMgr "a + b * c").getEditBuffer.InsertText 7 " * d".data true).map
          (fun B => (true, ⟨"a + b * c".data, some B⟩)) ∧
    add_text_via_rewriter.VisitStmt (Rewriter.setSourceMgr "a + b * c")
        (.BinaryOperator ⟨.file 0, .file 8, .file 2⟩ .BO_Add (leafExpr 0 0)
          (.BinaryOperator ⟨.file 4, .file 8, .file 6⟩ .BO_Mul (leafExpr 4 4) (leafExpr 8 8)))
      ≠ ((Rewriter.setSourceMgr "a + b * c").getEditBuffer.InsertText (4 + 1)
          " * d".data true).map (fun B => (true, ⟨"a + b * c".data, some B⟩)) ∧
    ((add_text_via_rewriter.VisitStmt (Rewriter.setSourceMgr "a + b * c")
        (.BinaryOperator ⟨.file 0, .file 8, .file 2⟩ .BO_Add (leafExpr 0 0)
          (.BinaryOperator ⟨.file 4, .file 8, .file 6⟩ .BO_Mul (leafExpr 4 4)
            (leafExpr 8 8)))).bind fun p => p.2.text) = some "a + b * * d c" := by
  refine ⟨rfl, by decide, by decide, by decide⟩

theorem getEditBuffer_mk_some (MB : List Char) (B : RewriteBuffer) :
    (Rewriter.mk MB (some B)).getEditBuffer = B := rfl

/-- C2, as amended: on a binary operator that is multiplicative, with the left operand
answering `getExprLoc()` with offset `a` and the right operand with offset `r`, `VisitStmt` of
`add_text_via_rewriter.cpp` makes exactly two edits, in this order: `"("` at offset `a`, then
`") + d"` at offset `r + 1`.  These are the left operand's start and the right operand's start
plus one whenever each operand's expression location is its start.  For the source text
`a * b` the traversal of the node materializes `(a * b) + d`. -/
theorem multiplicative_rewrite :
    (∀ (R : Rewriter) (l : StmtLocs) (Opc : BinaryOperatorKind) (LHS RHS : Stmt) (a r : Nat),
      Opc.isMultiplicativeOp = true → LHS.getExprLoc = .file a → RHS.getExprLoc = .file r →
      add_text_via_rewriter.VisitStmt R (.BinaryOperator l Opc LHS RHS) =
        ((R.getEditBuffer.InsertText a "(".data true).bind fun B =>
          B.InsertText (r + 1) ") + d".data true).map
          (fun B => (true, ⟨R.SourceMgr, some B⟩))) ∧
    (∀ (R : Rewriter) (l : StmtLocs) (Opc : BinaryOperatorKind) (LHS RHS : Stmt) (a r : Nat),
      Opc.isMultiplicativeOp = true →
      LHS.getExprLoc = LHS.getLocStart → RHS.getExprLoc = RHS.getLocStart →
      LHS.getLocStart = .file a → RHS.getLocStart = .file r →
      add_text_via_rewriter.VisitStmt R (.BinaryOperator l Opc LHS RHS) =
        ((R.getEditBuffer.InsertText a "(".data true).bind fun B =>
          B.InsertText (r + 1) ") + d".data true).map
          (fun B => (true, ⟨R.SourceMgr, some B⟩))) ∧
    ((TraverseStmt add_text_via_rewriter.MyASTVisitor
        (.BinaryOperator ⟨.file 0, .file 4, .file 2⟩ .BO_Mul (leafExpr 0 0) (leafExpr 4 4))
        (Rewriter.setSourceMgr "a * b")).bind fun p => p.2.text) = some "(a * b) + d" := by
  have key : ∀ (R : Rewriter) (l : StmtLocs) (Opc : BinaryOperatorKind) (LHS RHS : Stmt)
      (a r : Nat), Opc.isMultiplicativeOp = true → LHS.getExprLoc = .file a →
      RHS.getExprLoc = .file r →
      add_text_via_rewriter.VisitStmt R (.BinaryOperator l Opc LHS RHS) =
        ((R.getEditBuffer.InsertText a "(".data true).bind fun B =>
          B.InsertText (r + 1) ") + d".data true).map
          (fun B => (true, ⟨R.SourceMgr, some B⟩)) := by
    intro R l Opc LHS RHS a r hmul ha hr
    have hadd := isAdditiveOp_of_isMultiplicativeOp Opc hmul
    have e1 : ∀ (R : Rewriter) (o : Nat), R.InsertText (.file o) "(" true true = _ :=
      fun R o => InsertText_file_of_not_mem R o _ _ _ (by decide)
    have e2 : ∀ (R : Rewriter) (o : Nat), R.InsertText (.file o) ") + d" true true = _ :=
      fun R o => InsertText_file_of_not_mem R o _ _ _ (by decide)
    simp only [add_text_via_rewriter.VisitStmt, hadd, hmul, ha, hr,
      SourceLocation.getLocWithOffset, Bool.false_eq_true, if_false, if_true,
      Option.some_bind, e1, e2]
    cases h1 : R.getEditBuffer.InsertText a "(".data true with
    | none => rfl
    | some B1 =>
      simp only [Option.map_some', Option.some_bind, getEditBuffer_mk_some]
      cases B1.InsertText (r + 1) ") + d".data true <;> rfl
  exact ⟨key,
    fun R l Opc LHS RHS a r hmul hl hr ha hb =>
      key R l Opc LHS RHS a r hmul (hl.trans ha) (hr.trans hb),
    by decide⟩

/-- C2, as stated, fails: in `a * b * c` the left operand `a * b` of the outer operator
starts at offset 0, but its expression location is the first `*` at offset 2, and the opening
parenthesis is inserted at offset 2, not 0. -/
theorem multiplicative_edit_not_at_operand_start :
    (Stmt.BinaryOperator ⟨.file 0, .file 4, .file 2⟩ .BO_Mul (leafExpr 0 0)
        (leafExpr 4 4)).getLocStart = .file 0 ∧
    (leafExpr 8 8).getLocStart = .file 8 ∧
    add_text_via_rewriter.VisitStmt (Rewriter.setSourceMgr "a * b * c")
        (.BinaryOperator ⟨.file 0, .file 8, .file 6⟩ .BO_Mul
          (.BinaryOperator ⟨.file 0, .file 4, .file 2⟩ .BO_Mul (leafExpr 0 0) (leafExpr 4 4))
          (leafExpr 8 8))
      = (((Rewriter.setSourceMgr "a * b * c").getEditBuffer.InsertText 2 "(".data true).bind
          fun B => B.InsertText 9 ") + d".data true).map
          (fun B => (true, ⟨"a * b * c".data, some B⟩)) ∧
    add_text_via_rewriter.VisitStmt (Rewriter.setSourceMgr "a * b * c")
        (.BinaryOperator ⟨.file 0, .file 8, .file 6⟩ .BO_Mul
          (.BinaryOperator ⟨.file 0, .file 4, .file 2⟩ .BO_Mul (leafExpr 0 0) (leafExpr 4 4))
          (leafExpr 8 8))
      ≠ (((Rewriter.setSourceMgr "a * b * c").getEditBuffer.InsertText 0 "(".data true).bind
          fun B => B.InsertText (8 + 1) ") + d".data true).map
          (fun B => (true, ⟨"a * b * c".data, some B⟩)) ∧
    ((TraverseStmt add_text_via_rewriter.MyASTVisitor
        (.BinaryOperator ⟨.file 0, .file 8, .file 6⟩ .BO_Mul
          (.BinaryOperator ⟨.file 0, .file 4, .file 2⟩ .BO_Mul (leafExpr 0 0) (leafExpr 4 4))
          (leafExpr 8 8))
        (Rewriter.setSourceMgr "a * b * c")).bind fun p => p.2.text)
      = some "(a (* b) + d * c) + d" := by
  refine ⟨rfl, rfl, by decide, by decide, by decide⟩

/-- C3: on every function declaration, with a body or without, `VisitFunctionDecl` of
`add_text_via_rewriter.cpp` makes exactly one edit, at the offset `p` of the closing
parenthesis of the parameter list, with `InsertAfter = true`: the text is `"bool b"` when
there is no parameter and `", bool b"` otherwise.  So `int f()` becomes `int f(bool b)` and
`int f(int x)` becomes `int f(int x, bool b)`. -/
theorem signature_augmentation :
    (∀ (R : Rewriter) (f : FunctionInfo) (Params : List Decl) (Body : Option Stmt) (p : Nat),
      f.RParenLoc = .file p →
      add_text_via_rewriter.VisitFunctionDecl R f Params Body =
        (R.getEditBuffer.InsertText p
          (if Params.length = 0 then "bool b" else ", bool b").data true).map
          (fun B => (true, ⟨R.SourceMgr, some B⟩))) ∧
    ((TraverseDecl add_text_via_rewriter.MyASTVisitor
        (.FunctionDecl ⟨"f", "int", .file 0, .file 6, false⟩ [] none)
        (Rewriter.setSourceMgr "int f()")).bind fun p => p.2.text) = some "int f(bool b)" ∧
    ((TraverseDecl add_text_via_rewriter.MyASTVisitor
        (.FunctionDecl ⟨"f", "int", .file 0, .file 11, false⟩ [.Other [] []] none)
        (Rewriter.setSourceMgr "int f(int x)")).bind fun p => p.2.text)
      = some "int f(int x, bool b)" := by
  refine ⟨?_, by decide, by decide⟩
  intro R f Params Body p hp
  simp only [add_text_via_rewriter.VisitFunctionDecl, hp]
  split
  · rw [InsertText_file_of_not_mem _ _ _ _ _ (by decide)]
    cases R.getEditBuffer.InsertText p "bool b".data true <;> rfl
  · rw [InsertText_file_of_not_mem _ _ _ _ _ (by decide)]
    cases R.getEditBuffer.InsertText p ", bool b".data true <;> rfl

/-- C10, as amended: the right-hand edit of the operator rule is anchored at the offset the
right operand answers `getExprLoc()` with, plus exactly 1.  It depends on the right operand
only through that location: two right operands with the same expression location give the
same result, whatever their start, end and shape.  This holds for the additive edit and for
the closing edit of a multiplicative node.  For an operand whose expression location is its
start at `r`, of any length, the edit is at `r + 1`; so for `a + bc`, right operand `bc` at
offset 4, the output is `a + b * dc`: the text lands inside the operand. -/
theorem right_edit_ignores_operand_length :
    (∀ (R : Rewriter) (l l2 : StmtLocs) (Opc : BinaryOperatorKind) (LHS RHS RHS2 : Stmt),
      RHS.getExprLoc = RHS2.getExprLoc →
      add_text_via_rewriter.VisitStmt R (.BinaryOperator l Opc LHS RHS) =
        add_text_via_rewriter.VisitStmt R (.BinaryOperator l2 Opc LHS RHS2)) ∧
    (∀ (R : Rewriter) (l : StmtLocs) (Opc : BinaryOperatorKind) (LHS RHS : Stmt) (r : Nat),
      Opc.isAdditiveOp = true → RHS.getExprLoc = .file r →
      add_text_via_rewriter.VisitStmt R (.BinaryOperator l Opc LHS RHS) =
        (R.getEditBuffer.InsertText (r + 1) " * d".data true).map
          (fun B => (true, ⟨R.SourceMgr, some B⟩))) ∧
    (∀ (R : Rewriter) (l : StmtLocs) (Opc : BinaryOperatorKind) (LHS RHS : Stmt) (r : Nat),
      Opc.isMultiplicativeOp = true → RHS.getExprLoc = .file r →
      add_text_via_rewriter.VisitStmt R (.BinaryOperator l Opc LHS RHS) =
        (R.InsertText LHS.getExprLoc "(" true true).bind fun p =>
          (p.2.getEditBuffer.InsertText (r + 1) ") + d".data true).map
            (fun B => (true, ⟨p.2.SourceMgr, some B⟩))) ∧
    (∀ (R : Rewriter) (l : StmtLocs) (Opc : BinaryOperatorKind) (LHS : Stmt) (r last : Nat),
      Opc.isAdditiveOp = true →
      (leafExpr r last).getLocStart = .file r ∧
      add_text_via_rewriter.VisitStmt R (.BinaryOperator l Opc LHS (leafExpr r last)) =
        (R.getEditBuffer.InsertText (r + 1) " * d".data true).map
          (fun B => (true, ⟨R.SourceMgr, some B⟩))) ∧
    ((TraverseStmt add_text_via_rewriter.MyASTVisitor
        (.BinaryOperator ⟨.file 0, .file 4, .file 2⟩ .BO_Add (leafExpr 0 0) (leafExpr 4 5))
        (Rewriter.setSourceMgr "a + bc")).bind fun p => p.2.text) = some "a + b * dc" := by
  have e0 : ∀ (R : Rewriter) (o : Nat), R.InsertText (.file o) " * d" true true = _ :=
    fun R o => InsertText_file_of_not_mem R o _ _ _ (by decide)
  have e2 : ∀ (R : Rewriter) (o : Nat), R.InsertText (.file o) ") + d" true true = _ :=
    fun R o => InsertText_file_of_not_mem R o _ _ _ (by decide)
  have key : ∀ (R : Rewriter) (l : StmtLocs) (Opc : BinaryOperatorKind) (LHS RHS : Stmt)
      (r : Nat), Opc.isAdditiveOp = true → RHS.getExprLoc = .file r →
      add_text_via_rewriter.VisitStmt R (.BinaryOperator l Opc LHS RHS) =
        (R.getEditBuffer.InsertText (r + 1) " * d".data true).map
          (fun B => (true, ⟨R.SourceMgr, some B⟩)) := by
    intro R l Opc LHS RHS r hadd hr
    have hmul := isMultiplicativeOp_of_isAdditiveOp Opc hadd
    simp only [add_text_via_rewriter.VisitStmt, hadd, hmul, hr,
      SourceLocation.getLocWithOffset, Bool.false_eq_true, if_false, if_true,
      Option.some_bind, e0]
    cases R.getEditBuffer.InsertText (r + 1) " * d".data true <;> rfl
  refine ⟨?_, key, ?_, ?_, by decide⟩
  · intro R l l2 Opc LHS RHS RHS2 h
    simp only [add_text_via_rewriter.VisitStmt, h]
  · intro R l Opc LHS RHS r hmul hr
    have hadd := isAdditiveOp_of_isMultiplicativeOp Opc hmul
    simp only [add_text_via_rewriter.VisitStmt, hadd, hmul, hr,
      SourceLocation.getLocWithOffset, Bool.false_eq_true, if_false, if_true,
      Option.some_bind, e2]
    cases R.InsertText LHS.getExprLoc "(" true true with
    | none => rfl
    | some p =>
      simp only [Option.map_some', Option.some_bind]
      cases p.2.getEditBuffer.InsertText (r + 1) ") + d".data true <;> rfl
  · intro R l Opc LHS r last hadd
    exact ⟨rfl, key R l Opc LHS (leafExpr r last) r hadd rfl⟩

/-- C10, as stated, fails: in `x - y % z` the right operand `y % z` starts at offset 4, but
the edit is anchored at its expression location, the `%` at offset 6, plus 1: the text is
inserted at offset 7, not at the operand's start plus 1. -/
theorem right_edit_not_at_operand_start_plus_one :
    (Stmt.BinaryOperator ⟨.file 4, .file 8, .file 6⟩ .BO_Rem (leafExpr 4 4)
        (leafExpr 8 8)).getLocStart = .file 4 ∧
    add_text_via_rewriter.VisitStmt (Rewriter.setSourceMgr "x - y % z")
        (.BinaryOperator ⟨.file 0, .file 8, .file 2⟩ .BO_Sub (leafExpr 0 0)
          (.BinaryOperator ⟨.file 4, .file 8, .file 6⟩ .BO_Rem (leafExpr 4 4) (leafExpr 8 8)))
      = some (true, ⟨"x - y % z".data, some ⟨"x - y % z".data, [(7, " * d".data)]⟩⟩) ∧
    add_text_via_rewriter.VisitStmt (Rewriter.setSourceMgr "x - y % z")
        (.BinaryOperator ⟨.file 0, .file 8, .file 2⟩ .BO_Sub (leafExpr 0 0)
          (.BinaryOperator ⟨.file 4, .file 8, .file 6⟩ .BO_Rem (leafExpr 4 4) (leafExpr 8 8)))
      ≠ some (true, ⟨"x - y % z".data, some ⟨"x - y % z".data, [(4 + 1, " * d".data)]⟩⟩) ∧
    ((add_text_via_rewriter.VisitStmt (Rewriter.setSourceMgr "x - y % z")
        (.BinaryOperator ⟨.file 0, .file 8, .file 2⟩ .BO_Sub (leafExpr 0 0)
          (.BinaryOperator ⟨.file 4, .file 8, .file 6⟩ .BO_Rem (leafExpr 4 4)
            (leafExpr 8 8)))).bind fun p => p.2.text) = some "x - y % * d z" := by
  refine ⟨rfl, by decide, by decide, by decide⟩

theorem fragmentsAt_InsertText_after (B B2 : RewriteBuffer) (o : Nat) (Str : List Char)
    (h : B.InsertText o Str true = some B2) (x : Nat) :
    B2.fragmentsAt x = if o = x then B.fragmentsAt x ++ Str else B.fragmentsAt x := by
  unfold RewriteBuffer.InsertText at h
  split at h
  · cases h
    by_cases hx : o = x <;>
      simp [RewriteBuffer.fragmentsAt, List.filter_append, List.filter_cons, hx]
  · cases h

theorem fragmentsAt_InsertText_before (B B2 : RewriteBuffer) (o : Nat) (Str : List Char)
    (h : B.InsertText o Str false = some B2) (x : Nat) :
    B2.fragmentsAt x = if o = x then Str ++ B.fragmentsAt x else B.fragmentsAt x := by
  unfold RewriteBuffer.InsertText at h
  split at h
  · cases h
    by_cases hx : o = x <;>
      simp [RewriteBuffer.fragmentsAt, List.filter_cons, hx]
  · cases h

theorem Original_InsertText (B B2 : RewriteBuffer) (o : Nat) (Str : List Char) (a : Bool)
    (h : B.InsertText o Str a = some B2) : B2.Original = B.Original ∧ o ≤ B.Original.length := by
  unfold RewriteBuffer.InsertText at h
  split at h
  · cases h
    exact ⟨rfl, by assumption⟩
  · cases h

theorem InsertText_isSome (B : RewriteBuffer) (o : Nat) (Str : List Char) (a : Bool)
    (h : o ≤ B.Original.length) : ∃ B2, B.InsertText o Str a = some B2 := by
  unfold RewriteBuffer.InsertText
  rw [if_pos h]
  exact ⟨_, rfl⟩

/-- C5, as amended: the annotations of an if statement are inserted with
`InsertAfter = true`. -/
theorem if_annotation :
    (∀ (R : Rewriter) (l : StmtLocs) (Cond Then : Stmt),
      source2source.VisitStmt R (.IfStmt l Cond Then none) =
        (R.InsertText Then.getLocStart "// the 'if' part\n" true true).map
          (fun p => (true, p.2))) ∧
    (∀ (R : Rewriter) (l : StmtLocs) (Cond Then Else : Stmt),
      source2source.VisitStmt R (.IfStmt l Cond Then (some Else)) =
        ((R.InsertText Then.getLocStart "// the 'if' part\n" true true).bind fun p =>
          p.2.InsertText Else.getLocStart "// the 'else' part\n" true true).map
          (fun p => (true, p.2))) ∧
    (∀ (R : Rewriter) (s : Stmt), (∀ l c t e, s ≠ .IfStmt l c t e) →
      source2source.VisitStmt R s = some (true, R)) ∧
    (∀ (R : Rewriter) (l : StmtLocs) (Cond Then : Stmt) (t : Nat),
      Then.getLocStart = .file t → t ≤ R.getEditBuffer.Original.length →
      ∃ R2, source2source.VisitStmt R (.IfStmt l Cond Then none) = some (true, R2) ∧
        R2.getEditBuffer.fragmentsAt t =
          R.getEditBuffer.fragmentsAt t ++ R.indented t "// the 'if' part\n".data true) := by
  refine ⟨?_, ?_, ?_, ?_⟩
  · intro R l Cond Then
    simp only [source2source.VisitStmt]
    cases R.InsertText Then.getLocStart "// the 'if' part\n" true true <;> rfl
  · intro R l Cond Then Else
    simp only [source2source.VisitStmt]
    cases R.InsertText Then.getLocStart "// the 'if' part\n" true true with
    | none => rfl
    | some p =>
      simp only [Option.map_some', Option.some_bind]
      cases p.2.InsertText Else.getLocStart "// the 'else' part\n" true true <;> rfl
  · intro R s hs
    cases s with
    | IfStmt l c t e => exact absurd rfl (hs l c t e)
    | BinaryOperator _ _ _ _ => rfl
    | DeclStmt _ _ => rfl
    | Other _ _ => rfl
  · intro R l Cond Then t ht hle
    obtain ⟨B2, hB2⟩ := InsertText_isSome R.getEditBuffer t
      (R.indented t "// the 'if' part\n".data true) true hle
    refine ⟨⟨R.SourceMgr, some B2⟩, ?_, ?_⟩
    · simp only [source2source.VisitStmt, ht, Rewriter.InsertText, hB2]
      rfl
    · rw [getEditBuffer_mk_some, fragmentsAt_InsertText_after _ _ _ _ hB2, if_pos rfl]

/-- C5, as stated, fails: on a rewriter that already holds the fragment `/*x*/` at the
then-arm's offset the comment is put after that fragment; BEFORE_EXISTING placement would put
it in front. -/
theorem if_annotation_not_before_existing :
    ((source2source.VisitStmt
        ⟨"if(c)y;".data, some ⟨"if(c)y;".data, [(5, "/*x*/".data)]⟩⟩
        (.IfStmt ⟨.file 0, .file 6, .file 0⟩ (leafExpr 3 3)
          (.Other ⟨.file 5, .file 6, .file 5⟩ []) none)).bind fun p => p.2.text)
      = some "if(c)/*x*/// the 'if' part\ny;" ∧
    ((Rewriter.InsertText
        ⟨"if(c)y;".data, some ⟨"if(c)y;".data, [(5, "/*x*/".data)]⟩⟩
        (.file 5) "// the 'if' part\n" false true).bind fun p => p.2.text)
      = some "if(c)// the 'if' part\n/*x*/y;" ∧
    source2source.VisitStmt
        ⟨"if(c)y;".data, some ⟨"if(c)y;".data, [(5, "/*x*/".data)]⟩⟩
        (.IfStmt ⟨.file 0, .file 6, .file 0⟩ (leafExpr 3 3)
          (.Other ⟨.file 5, .file 6, .file 5⟩ []) none)
      ≠ (Rewriter.InsertText
        ⟨"if(c)y;".data, some ⟨"if(c)y;".data, [(5, "/*x*/".data)]⟩⟩
        (.file 5) "// the 'if' part\n" false true).map (fun p => (true, p.2)) := by
  refine ⟨by decide, by decide, by decide⟩

/-- C7, as amended: the two insertions of a multiplicative node are made one after the other
and what `InsertText` reports is not looked at; an insertion at a location that is not
rewritable is skipped and the other one is still made. -/
theorem paired_edits_are_independent :
    (∀ (R : Rewriter) (x : Nat) (Str : String) (a i : Bool),
      R.InsertText (.expansion x) Str a i = some (true, R)) ∧
    (∀ (R : Rewriter) (l : StmtLocs) (Opc : BinaryOperatorKind) (LHS RHS : Stmt),
      Opc.isMultiplicativeOp = true →
      add_text_via_rewriter.VisitStmt R (.BinaryOperator l Opc LHS RHS) =
        ((R.InsertText LHS.getExprLoc "(" true true).bind fun p =>
          p.2.InsertText (RHS.getExprLoc.getLocWithOffset 1) ") + d" true true).map
          (fun p => (true, p.2))) ∧
    (∀ (R : Rewriter) (l : StmtLocs) (Opc : BinaryOperatorKind) (LHS RHS : Stmt) (x r : Nat),
      Opc.isMultiplicativeOp = true →
      LHS.getExprLoc = .expansion x → RHS.getExprLoc = .file r →
      add_text_via_rewriter.VisitStmt R (.BinaryOperator l Opc LHS RHS) =
        (R.getEditBuffer.InsertText (r + 1) ") + d".data true).map
          (fun B => (true, ⟨R.SourceMgr, some B⟩))) ∧
    (∀ (R : Rewriter) (l : StmtLocs) (Opc : BinaryOperatorKind) (LHS RHS : Stmt) (a x : Nat),
      Opc.isMultiplicativeOp = true →
      LHS.getExprLoc = .file a → RHS.getExprLoc = .expansion x →
      add_text_via_rewriter.VisitStmt R (.BinaryOperator l Opc LHS RHS) =
        (R.getEditBuffer.InsertText a "(".data true).map
          (fun B => (true, ⟨R.SourceMgr, some B⟩))) := by
  have e1 : ∀ (R : Rewriter) (o : Nat), R.InsertText (.file o) "(" true true = _ :=
    fun R o => InsertText_file_of_not_mem R o _ _ _ (by decide)
  have e2 : ∀ (R : Rewriter) (o : Nat), R.InsertText (.file o) ") + d" true true = _ :=
    fun R o => InsertText_file_of_not_mem R o _ _ _ (by decide)
  refine ⟨fun _ _ _ _ _ => rfl, ?_, ?_, ?_⟩
  · intro R l Opc LHS RHS hmul
    have hadd := isAdditiveOp_of_isMultiplicativeOp Opc hmul
    simp only [add_text_via_rewriter.VisitStmt, hadd, hmul, Bool.false_eq_true, if_false,
      if_true, Option.some_bind]
    cases R.InsertText LHS.getExprLoc "(" true true with
    | none => rfl
    | some p =>
      simp only [Option.map_some', Option.some_bind]
      cases p.2.InsertText (RHS.getExprLoc.getLocWithOffset 1) ") + d" true true <;> rfl
  · intro R l Opc LHS RHS x r hmul hx hr
    have hadd := isAdditiveOp_of_isMultiplicativeOp Opc hmul
    simp only [add_text_via_rewriter.VisitStmt, hadd, hmul, hx, hr, Bool.false_eq_true,
      if_false, if_true, Option.some_bind, SourceLocation.getLocWithOffset, e2]
    simp only [Rewriter.InsertText, Option.map_some', Option.some_bind]
    cases R.getEditBuffer.InsertText (r + 1) ") + d".data true <;> rfl
  · intro R l Opc LHS RHS a x hmul ha hx
    have hadd := isAdditiveOp_of_isMultiplicativeOp Opc hmul
    simp only [add_text_via_rewriter.VisitStmt, hadd, hmul, ha, hx, Bool.false_eq_true,
      if_false, if_true, Option.some_bind, SourceLocation.getLocWithOffset, e1]
    cases R.getEditBuffer.InsertText a "(".data true with
    | none => rfl
    | some B => rfl

/-- C7, as stated, fails: in `int c=A*b;` with `A` a preprocessor name the left operand has no
rewritable location, `InsertText` reports failure for the opening parenthesis, and the closing
text is inserted all the same. -/
theorem paired_edits_not_atomic :
    add_text_via_rewriter.main "#define A a\nint a,b;int c=A*b;"
        [[.Other [] [], .Other [] []],
         [.Other [.BinaryOperator ⟨.expansion 0, .file 28, .file 27⟩ .BO_Mul
            (.Other ⟨.expansion 0, .expansion 0, .expansion 0⟩ []) (leafExpr 28 28)] []]]
      = some ("++++++++++++++++++++++++++++++++++++++++++++++\n" ++
          "#define A a\nint a,b;int c=A*b) + d;") ∧
    (Rewriter.setSourceMgr "#define A a\nint a,b;int c=A*b;").InsertText (.expansion 0)
        "(" true true
      = some (true, Rewriter.setSourceMgr "#define A a\nint a,b;int c=A*b;") := by
  refine ⟨by decide, by decide⟩

/-! ### Trees that no rule matches leave the rewriter as it is -/

mutual
theorem TraverseStmt_noMatch (V : ASTVisitor) (mS : Stmt → Bool)
    (mF : FunctionInfo → List Decl → Option Stmt → Bool)
    (hS : ∀ R s, mS s = false → V.VisitStmt R s = some (true, R))
    (hF : ∀ R f ps b, mF f ps b = false → V.VisitFunctionDecl R f ps b = some (true, R)) :
    ∀ (s : Stmt) (R : Rewriter), Stmt.noMatch mS mF s = true →
      TraverseStmt V s R = some (true, R)
  | .BinaryOperator l Opc LHS RHS, R, h => by
    simp only [Stmt.noMatch, Bool.and_eq_true, Bool.not_eq_true'] at h
    simp only [TraverseStmt, hS _ _ h.1.1, TRY_TO,
      TraverseStmt_noMatch V mS mF hS hF LHS R h.1.2,
      TraverseStmt_noMatch V mS mF hS hF RHS R h.2]
  | .IfStmt l Cond Then Else, R, h => by
    simp only [Stmt.noMatch, Bool.and_eq_true, Bool.not_eq_true'] at h
    simp only [TraverseStmt, hS _ _ h.1.1.1, TRY_TO,
      TraverseStmt_noMatch V mS mF hS hF Cond R h.1.1.2,
      TraverseStmt_noMatch V mS mF hS hF Then R h.1.2,
      TraverseOptStmt_noMatch V mS mF hS hF Else R h.2]
  | .DeclStmt l decls, R, h => by
    simp only [Stmt.noMatch, Bool.and_eq_true, Bool.not_eq_true'] at h
    simp only [TraverseStmt, hS _ _ h.1, TRY_TO,
      TraverseDecls_noMatch V mS mF hS hF decls R h.2]
  | .Other l children, R, h => by
    simp only [Stmt.noMatch, Bool.and_eq_true, Bool.not_eq_true'] at h
    simp only [TraverseStmt, hS _ _ h.1, TRY_TO,
      TraverseStmts_noMatch V mS mF hS hF children R h.2]
theorem TraverseOptStmt_noMatch (V : ASTVisitor) (mS : Stmt → Bool)
    (mF : FunctionInfo → List Decl → Option Stmt → Bool)
    (hS : ∀ R s, mS s = false → V.VisitStmt R s = some (true, R))
    (hF : ∀ R f ps b, mF f ps b = false → V.VisitFunctionDecl R f ps b = some (true, R)) :
    ∀ (s : Option Stmt) (R : Rewriter), Stmt.noMatchOpt mS mF s = true →
      TraverseOptStmt V s R = some (true, R)
  | none, R, _ => by simp only [TraverseOptStmt]
  | some s, R, h => by
    simp only [Stmt.noMatchOpt] at h
    simp only [TraverseOptStmt, TraverseStmt_noMatch V mS mF hS hF s R h]
theorem TraverseStmts_noMatch (V : ASTVisitor) (mS : Stmt → Bool)
    (mF : FunctionInfo → List Decl → Option Stmt → Bool)
    (hS : ∀ R s, mS s = false → V.VisitStmt R s = some (true, R))
    (hF : ∀ R f ps b, mF f ps b = false → V.VisitFunctionDecl R f ps b = some (true, R)) :
    ∀ (ss : List Stmt) (R : Rewriter), Stmt.noMatchList mS mF ss = true →
      TraverseStmts V ss R = some (true, R)
  | [], R, _ => by simp only [TraverseStmts]
  | s :: ss, R, h => by
    simp only [Stmt.noMatchList, Bool.and_eq_true] at h
    simp only [TraverseStmts, TRY_TO, TraverseStmt_noMatch V mS mF hS hF s R h.1,
      TraverseStmts_noMatch V mS mF hS hF ss R h.2]
theorem TraverseDecl_noMatch (V : ASTVisitor) (mS : Stmt → Bool)
    (mF : FunctionInfo → List Decl → Option Stmt → Bool)
    (hS : ∀ R s, mS s = false → V.VisitStmt R s = some (true, R))
    (hF : ∀ R f ps b, mF f ps b = false → V.VisitFunctionDecl R f ps b = some (true, R)) :
    ∀ (d : Decl) (R : Rewriter), Decl.noMatch mS mF d = true →
      TraverseDecl V d R = some (true, R)
  | .FunctionDecl info Params Body, R, h => by
    simp only [Decl.noMatch, Bool.and_eq_true, Bool.not_eq_true'] at h
    simp only [TraverseDecl, hF _ _ _ _ h.1.1, TRY_TO,
      TraverseDecls_noMatch V mS mF hS hF Params R h.1.2]
    split
    · rename_i hd
      rw [if_pos hd] at h
      exact TraverseOptStmt_noMatch V mS mF hS hF Body R h.2
    · rfl
  | .Other stmts decls, R, h => by
    simp only [Decl.noMatch, Bool.and_eq_true] at h
    simp only [TraverseDecl, TRY_TO, TraverseStmts_noMatch V mS mF hS hF stmts R h.1,
      TraverseDecls_noMatch V mS mF hS hF decls R h.2]
theorem TraverseDecls_noMatch (V : ASTVisitor) (mS : Stmt → Bool)
    (mF : FunctionInfo → List Decl → Option Stmt → Bool)
    (hS : ∀ R s, mS s = false → V.VisitStmt R s = some (true, R))
    (hF : ∀ R f ps b, mF f ps b = false → V.VisitFunctionDecl R f ps b = some (true, R)) :
    ∀ (ds : List Decl) (R : Rewriter), Decl.noMatchList mS mF ds = true →
      TraverseDecls V ds R = some (true, R)
  | [], R, _ => by simp only [TraverseDecls]
  | d :: ds, R, h => by
    simp only [Decl.noMatchList, Bool.and_eq_true] at h
    simp only [TraverseDecls, TRY_TO, TraverseDecl_noMatch V mS mF hS hF d R h.1,
      TraverseDecls_noMatch V mS mF hS hF ds R h.2]
end

theorem HandleTopLevelDecl_noMatch (V : ASTVisitor) (mS : Stmt → Bool)
    (mF : FunctionInfo → List Decl → Option Stmt → Bool)
    (hS : ∀ R s, mS s = false → V.VisitStmt R s = some (true, R))
    (hF : ∀ R f ps b, mF f ps b = false → V.VisitFunctionDecl R f ps b = some (true, R))
    (DR : List Decl) (R : Rewriter) (h : Decl.noMatchList mS mF DR = true) :
    HandleTopLevelDecl V DR R = some R := by
  induction DR with
  | nil => rfl
  | cons b DR ih =>
    simp only [Decl.noMatchList, Bool.and_eq_true] at h
    simp only [HandleTopLevelDecl, TraverseDecl_noMatch V mS mF hS hF b R h.1, ih h.2]

theorem ParseAST_noMatch (V : ASTVisitor) (mS : Stmt → Bool)
    (mF : FunctionInfo → List Decl → Option Stmt → Bool)
    (hS : ∀ R s, mS s = false → V.VisitStmt R s = some (true, R))
    (hF : ∀ R f ps b, mF f ps b = false → V.VisitFunctionDecl R f ps b = some (true, R))
    (TU : List (List Decl)) (R : Rewriter)
    (h : ∀ DR ∈ TU, Decl.noMatchList mS mF DR = true) :
    ParseAST V TU R = some R := by
  induction TU with
  | nil => rfl
  | cons DR TU ih =>
    simp only [ParseAST,
      HandleTopLevelDecl_noMatch V mS mF hS hF DR R (h DR (List.mem_cons_self _ _)),
      ih (fun D hD => h D (List.mem_cons_of_mem _ hD))]

theorem add_text_VisitStmt_of_not_matches (R : Rewriter) (s : Stmt)
    (h : add_text_via_rewriter.matchesStmt s = false) :
    add_text_via_rewriter.VisitStmt R s = some (true, R) := by
  cases s with
  | BinaryOperator l Opc LHS RHS =>
    simp only [add_text_via_rewriter.matchesStmt, Bool.or_eq_false_iff] at h
    simp only [add_text_via_rewriter.VisitStmt, h.1, h.2, Bool.false_eq_true, if_false,
      Option.some_bind]
  | IfStmt _ _ _ _ => rfl
  | DeclStmt _ _ => rfl
  | Other _ _ => rfl

theorem source2source_VisitStmt_of_not_matches (R : Rewriter) (s : Stmt)
    (h : source2source.matchesStmt s = false) :
    source2source.VisitStmt R s = some (true, R) := by
  cases s with
  | IfStmt _ _ _ _ => simp [source2source.matchesStmt] at h
  | BinaryOperator _ _ _ _ => rfl
  | DeclStmt _ _ => rfl
  | Other _ _ => rfl

theorem source2source_VisitFunctionDecl_of_not_matches (R : Rewriter) (f : FunctionInfo)
    (ps : List Decl) (b : Option Stmt) (h : source2source.matchesFunctionDecl f ps b = false) :
    source2source.VisitFunctionDecl R f ps b = some (true, R) := by
  cases b with
  | none => rfl
  | some _ => simp [source2source.matchesFunctionDecl] at h

/-- C4: when no node is matched no rewrite buffer exists for the main file, and `main`
dereferences the null pointer that `getRewriteBufferFor` returns. -/
theorem no_edit_run_dereferences_null :
    (∀ (file : String) (TU : List (List Decl)),
      (∀ DR ∈ TU, Decl.noMatchList add_text_via_rewriter.matchesStmt
        add_text_via_rewriter.matchesFunctionDecl DR = true) →
      ParseAST add_text_via_rewriter.MyASTVisitor TU (Rewriter.setSourceMgr file)
          = some (Rewriter.setSourceMgr file) ∧
        (Rewriter.setSourceMgr file).getRewriteBufferFor = none ∧
        add_text_via_rewriter.main file TU = none) ∧
    (∀ (file : String) (TU : List (List Decl)),
      (∀ DR ∈ TU, Decl.noMatchList source2source.matchesStmt
        source2source.matchesFunctionDecl DR = true) →
      ParseAST source2source.MyASTVisitor TU (Rewriter.setSourceMgr file)
          = some (Rewriter.setSourceMgr file) ∧
        (Rewriter.setSourceMgr file).getRewriteBufferFor = none ∧
        source2source.main file TU = none) ∧
    add_text_via_rewriter.main "int x;" [[.Other [] []]] = none ∧
    source2source.main "int x;" [[.Other [] []]] = none := by
  refine ⟨?_, ?_, by decide, by decide⟩
  · intro file TU h
    have hp := ParseAST_noMatch add_text_via_rewriter.MyASTVisitor _ _
      add_text_VisitStmt_of_not_matches
      (fun R f ps b hb => by simp [add_text_via_rewriter.matchesFunctionDecl] at hb)
      TU (Rewriter.setSourceMgr file) h
    refine ⟨hp, rfl, ?_⟩
    simp only [add_text_via_rewriter.main, hp]
    rfl
  · intro file TU h
    have hp := ParseAST_noMatch source2source.MyASTVisitor _ _
      source2source_VisitStmt_of_not_matches source2source_VisitFunctionDecl_of_not_matches
      TU (Rewriter.setSourceMgr file) h
    refine ⟨hp, rfl, ?_⟩
    simp only [source2source.main, hp]
    rfl

/-! ### The splice -/

theorem splice_congr (F G : Nat → List Char) (cs : List Char) :
    ∀ (o : Nat), (∀ x, o ≤ x → x ≤ o + cs.length → F x = G x) →
      splice F o cs = splice G o cs := by
  induction cs with
  | nil =>
    intro o h
    simp only [splice]
    exact h o (le_refl _) (by simp)
  | cons c cs ih =>
    intro o h
    simp only [splice]
    rw [h o (le_refl _) (by simp),
      ih (o + 1) (fun x h1 h2 => h x (by omega) (by simp only [List.length_cons]; omega))]

theorem splice_nil_fragments (cs : List Char) : ∀ (o : Nat), splice (fun _ => []) o cs = cs := by
  induction cs with
  | nil => intro o; rfl
  | cons c cs ih => intro o; simp only [splice, ih, List.nil_append]

theorem spliceTagged_map_snd (F : Nat → List Char) (cs : List Char) :
    ∀ (o : Nat), (spliceTagged F o cs).map Prod.snd = splice F o cs := by
  induction cs with
  | nil => intro o; simp [spliceTagged, splice]
  | cons c cs ih => intro o; simp [spliceTagged, splice, ih]

theorem filter_original_map_true (l : List Char) :
    (l.map (fun c => (true, c))).filter (fun p : Bool × Char => !p.1) = [] := by
  induction l with
  | nil => rfl
  | cons c cs ih => simp [List.filter_cons, ih]

theorem spliceTagged_filter_original (F : Nat → List Char) (cs : List Char) :
    ∀ (o : Nat),
      ((spliceTagged F o cs).filter (fun p : Bool × Char => !p.1)).map Prod.snd = cs := by
  induction cs with
  | nil => intro o; simp [spliceTagged, filter_original_map_true]
  | cons c cs ih =>
    intro o
    simp [spliceTagged, List.filter_append, filter_original_map_true, List.filter_cons, ih]

theorem splice_length_update (F G : Nat → List Char) (o n : Nat)
    (hne : ∀ x, x ≠ o → G x = F x) (ho : (G o).length = (F o).length + n) (cs : List Char) :
    ∀ (s : Nat), s ≤ o → o ≤ s + cs.length →
      (splice G s cs).length = (splice F s cs).length + n := by
  induction cs with
  | nil =>
    intro s h1 h2
    have : o = s := by simp at h2; omega
    subst this
    simp only [splice, ho]
  | cons c cs ih =>
    intro s h1 h2
    simp only [splice, List.length_append, List.length_cons]
    by_cases hs : s = o
    · subst hs
      rw [ho, splice_congr G F cs (s + 1) (fun x hx _ => hne x (by omega))]
      omega
    · rw [hne s hs, ih (s + 1) (by omega) (by simp only [List.length_cons] at h2; omega)]
      omega

theorem splice_split (F : Nat → List Char) (front back : List Char) :
    ∀ (s : Nat), splice F s (front ++ back) =
      splice (fun x => if x < s + front.length then F x else []) s front ++
        F (s + front.length) ++
        splice (fun x => if s + front.length < x then F x else []) (s + front.length) back := by
  induction front with
  | nil =>
    intro s
    cases back with
    | nil => simp [splice]
    | cons c cs =>
      simp only [List.nil_append, splice, List.length_nil, Nat.add_zero, Nat.lt_irrefl,
        if_false]
      rw [splice_congr F (fun x => if s < x then F x else []) cs (s + 1)
        (fun x hx _ => by
          show F x = if s < x then F x else []
          rw [if_pos (by omega)])]
  | cons c cs ih =>
    intro s
    have e : s + (c :: cs).length = s + 1 + cs.length := by
      simp only [List.length_cons]; omega
    rw [e]
    have ih2 := ih (s + 1)
    simp only [List.cons_append, splice, List.append_eq]
    rw [ih2, if_pos (by omega)]
    simp only [List.append_assoc, List.cons_append]

theorem materialize_split (B : RewriteBuffer) (o : Nat) (h : o ≤ B.Original.length) :
    B.materialize = B.outputBefore o ++ B.fragmentsAt o ++ B.outputFrom o := by
  have hl : (B.Original.take o).length = o := by simp [h]
  have := splice_split B.fragmentsAt (B.Original.take o) (B.Original.drop o) 0
  simp only [List.take_append_drop, hl, Nat.zero_add] at this
  exact this

/-! ### Runs of insertions -/

theorem materialize_length_InsertText (B B2 : RewriteBuffer) (o : Nat) (Str : List Char)
    (a : Bool) (h : B.InsertText o Str a = some B2) :
    B2.materialize.length = B.materialize.length + Str.length := by
  obtain ⟨hO, hle⟩ := Original_InsertText B B2 o Str a h
  unfold RewriteBuffer.materialize
  rw [hO]
  apply splice_length_update B.fragmentsAt B2.fragmentsAt o Str.length
  · intro x hx
    cases a with
    | true => rw [fragmentsAt_InsertText_after B B2 o Str h x, if_neg (Ne.symm hx)]
    | false => rw [fragmentsAt_InsertText_before B B2 o Str h x, if_neg (Ne.symm hx)]
  · cases a with
    | true =>
      rw [fragmentsAt_InsertText_after B B2 o Str h o, if_pos rfl, List.length_append]
    | false =>
      rw [fragmentsAt_InsertText_before B B2 o Str h o, if_pos rfl, List.length_append]
      omega
  · exact Nat.zero_le _
  · simpa using hle

theorem InsertText_file_isSome (R : Rewriter) (o : Nat) (Str : String) (a i : Bool)
    (h : o ≤ R.getEditBuffer.Original.length) :
    ∃ B2, R.getEditBuffer.InsertText o (R.indented o Str.data i) a = some B2 ∧
      R.InsertText (.file o) Str a i = some (false, ⟨R.SourceMgr, some B2⟩) := by
  obtain ⟨B2, hB2⟩ := InsertText_isSome R.getEditBuffer o (R.indented o Str.data i) a h
  exact ⟨B2, hB2, by simp only [Rewriter.InsertText, hB2]⟩

theorem InsertTexts_spec (edits : List (SourceLocation × String)) :
    ∀ (R : Rewriter),
      (∀ e ∈ edits, ∀ o, e.1 = .file o → o ≤ R.getEditBuffer.Original.length) →
      ∃ R2, R.InsertTexts edits = some R2 ∧ R2.SourceMgr = R.SourceMgr ∧
        R2.getEditBuffer.Original = R.getEditBuffer.Original ∧
        (∀ o, R2.getEditBuffer.fragmentsAt o = R.getEditBuffer.fragmentsAt o ++
          ((edits.filter (fun e => e.1 = .file o)).map (insertedText R.SourceMgr)).flatten) ∧
        R2.getEditBuffer.materialize.length = R.getEditBuffer.materialize.length +
          (edits.map (fun e => (insertedText R.SourceMgr e).length)).sum := by
  induction edits with
  | nil =>
    intro R _
    exact ⟨R, rfl, rfl, rfl, fun o => by simp, by simp⟩
  | cons e rest ih =>
    intro R hr
    obtain ⟨Loc, Str⟩ := e
    cases Loc with
    | expansion x =>
      obtain ⟨R2, h1, h2, h3, h4, h5⟩ :=
        ih R (fun e he o ho => hr e (List.mem_cons_of_mem _ he) o ho)
      refine ⟨R2, ?_, h2, h3, ?_, ?_⟩
      · simp only [Rewriter.InsertTexts, Rewriter.InsertText, h1]
      · intro o
        rw [h4 o]
        simp [List.filter_cons]
      · rw [h5]
        simp [insertedText]
    | file x =>
      have hx : x ≤ R.getEditBuffer.Original.length :=
        hr (.file x, Str) (List.mem_cons_self _ _) x rfl
      obtain ⟨B2, hB2, hI⟩ := InsertText_file_isSome R x Str true true hx
      have hO := (Original_InsertText _ _ _ _ _ hB2).1
      obtain ⟨R2, h1, h2, h3, h4, h5⟩ := ih ⟨R.SourceMgr, some B2⟩ (fun e he o ho => by
        rw [getEditBuffer_mk_some, hO]
        exact hr e (List.mem_cons_of_mem _ he) o ho)
      have hins : insertedText R.SourceMgr (.file x, Str) = R.indented x Str.data true := by
        simp [insertedText, Rewriter.indented]
      refine ⟨R2, ?_, h2, ?_, ?_, ?_⟩
      · simp only [Rewriter.InsertTexts, hI, h1]
      · rw [h3, getEditBuffer_mk_some, hO]
      · intro o
        rw [h4 o, getEditBuffer_mk_some, fragmentsAt_InsertText_after _ _ _ _ hB2 o]
        by_cases hxo : x = o
        · subst hxo
          simp [List.filter_cons, hins]
        · have : ¬ (SourceLocation.file x = SourceLocation.file o) := by
            intro hh; cases hh; exact hxo rfl
          simp [List.filter_cons, hxo, this]
      · rw [h5, getEditBuffer_mk_some, materialize_length_InsertText _ _ _ _ _ hB2]
        simp only [List.map_cons, List.sum_cons, hins]
        omega

theorem InsertTexts_append (e1 e2 : List (SourceLocation × String)) :
    ∀ (R : Rewriter), R.InsertTexts (e1 ++ e2) = (R.InsertTexts e1).bind fun R1 =>
      R1.InsertTexts e2 := by
  induction e1 with
  | nil => intro R; rfl
  | cons e rest ih =>
    intro R
    simp only [List.cons_append, Rewriter.InsertTexts]
    cases R.InsertText e.1 e.2 true true with
    | none => rfl
    | some p => exact ih p.2

theorem InsertTexts_in_range (edits : List (SourceLocation × String)) :
    ∀ (R R2 : Rewriter), R.InsertTexts edits = some R2 →
      ∀ e ∈ edits, ∀ o, e.1 = .file o → o ≤ R.getEditBuffer.Original.length := by
  induction edits with
  | nil => intro R R2 _ e he; cases he
  | cons e0 rest ih =>
    intro R R2 h e he o ho
    obtain ⟨Loc, Str⟩ := e0
    simp only [Rewriter.InsertTexts] at h
    cases Loc with
    | expansion x =>
      simp only [Rewriter.InsertText] at h
      rcases List.mem_cons.1 he with rfl | he2
      · cases ho
      · exact ih R R2 h e he2 o ho
    | file x =>
      simp only [Rewriter.InsertText] at h
      cases hB : R.getEditBuffer.InsertText x (R.indented x Str.data true) true with
      | none => simp [hB] at h
      | some B2 =>
        simp only [hB] at h
        obtain ⟨hO, hle⟩ := Original_InsertText _ _ _ _ _ hB
        rcases List.mem_cons.1 he with rfl | he2
        · cases ho
          exact hle
        · have := ih _ R2 h e he2 o ho
          rwa [getEditBuffer_mk_some, hO] at this

theorem emits_trans (R R1 R2 : Rewriter)
    (h1 : ∃ edits, R.InsertTexts edits = some R1)
    (h2 : ∃ edits, R1.InsertTexts edits = some R2) :
    ∃ edits, R.InsertTexts edits = some R2 := by
  obtain ⟨e1, h1⟩ := h1
  obtain ⟨e2, h2⟩ := h2
  exact ⟨e1 ++ e2, by rw [InsertTexts_append, h1]; exact h2⟩

theorem emits_InsertText (R : Rewriter) (Loc : SourceLocation) (Str : String)
    (p : Bool × Rewriter) (h : R.InsertText Loc Str true true = some p) :
    ∃ edits, R.InsertTexts edits = some p.2 :=
  ⟨[(Loc, Str)], by simp only [Rewriter.InsertTexts, h]⟩

theorem emits_InsertText_snd (R R1 : Rewriter) (Loc : SourceLocation) (Str : String)
    (h : (R.InsertText Loc Str true true).map Prod.snd = some R1) :
    ∃ edits, R.InsertTexts edits = some R1 := by
  cases hp : R.InsertText Loc Str true true with
  | none => simp [hp] at h
  | some p =>
    simp only [hp, Option.map_some', Option.some.injEq] at h
    subst h
    exact emits_InsertText R Loc Str p hp

theorem TRY_TO_eq_some (r : Option (Bool × Rewriter))
    (k : Rewriter → Option (Bool × Rewriter)) (p : Bool × Rewriter)
    (h : TRY_TO r k = some p) :
    ∃ q, r = some q ∧ (p = q ∨ k q.2 = some p) := by
  cases r with
  | none => simp [TRY_TO] at h
  | some q =>
    obtain ⟨b, R⟩ := q
    cases b with
    | false =>
      simp only [TRY_TO, Option.some.injEq] at h
      exact ⟨_, rfl, Or.inl h.symm⟩
    | true => exact ⟨_, rfl, Or.inr h⟩

theorem add_text_VisitStmt_emits (R : Rewriter) (s : Stmt) (p : Bool × Rewriter)
    (h : add_text_via_rewriter.VisitStmt R s = some p) :
    ∃ edits, R.InsertTexts edits = some p.2 := by
  cases s with
  | BinaryOperator l Opc LHS RHS =>
    simp only [add_text_via_rewriter.VisitStmt] at h
    obtain ⟨R1, h1, h⟩ := Option.bind_eq_some.1 h
    obtain ⟨R2, h2, h⟩ := Option.bind_eq_some.1 h
    cases h
    have s1 : ∃ edits, R.InsertTexts edits = some R1 := by
      split at h1
      · exact emits_InsertText_snd _ _ _ _ h1
      · cases h1; exact ⟨[], rfl⟩
    have s2 : ∃ edits, R1.InsertTexts edits = some R2 := by
      split at h2
      · obtain ⟨R3, h3, h2⟩ := Option.bind_eq_some.1 h2
        exact emits_trans _ _ _ (emits_InsertText_snd _ _ _ _ h3)
          (emits_InsertText_snd _ _ _ _ h2)
      · cases h2; exact ⟨[], rfl⟩
    exact emits_trans _ _ _ s1 s2
  | IfStmt _ _ _ _ => cases h; exact ⟨[], rfl⟩
  | DeclStmt _ _ => cases h; exact ⟨[], rfl⟩
  | Other _ _ => cases h; exact ⟨[], rfl⟩

theorem add_text_VisitFunctionDecl_emits (R : Rewriter) (f : FunctionInfo) (ps : List Decl)
    (b : Option Stmt) (p : Bool × Rewriter)
    (h : add_text_via_rewriter.VisitFunctionDecl R f ps b = some p) :
    ∃ edits, R.InsertTexts edits = some p.2 := by
  simp only [add_text_via_rewriter.VisitFunctionDecl] at h
  obtain ⟨R1, h1, h⟩ := Option.bind_eq_some.1 h
  cases h
  split at h1
  · exact emits_InsertText_snd _ _ _ _ h1
  · exact emits_InsertText_snd _ _ _ _ h1

theorem source2source_VisitStmt_emits (R : Rewriter) (s : Stmt) (p : Bool × Rewriter)
    (h : source2source.VisitStmt R s = some p) :
    ∃ edits, R.InsertTexts edits = some p.2 := by
  cases s with
  | IfStmt l Cond Then Else =>
    simp only [source2source.VisitStmt] at h
    obtain ⟨R1, h1, h⟩ := Option.bind_eq_some.1 h
    obtain ⟨R2, h2, h⟩ := Option.bind_eq_some.1 h
    cases h
    have s2 : ∃ edits, R1.InsertTexts edits = some R2 := by
      cases Else with
      | none => cases h2; exact ⟨[], rfl⟩
      | some E => exact emits_InsertText_snd _ _ _ _ h2
    exact emits_trans _ _ _ (emits_InsertText_snd _ _ _ _ h1) s2
  | BinaryOperator _ _ _ _ => cases h; exact ⟨[], rfl⟩
  | DeclStmt _ _ => cases h; exact ⟨[], rfl⟩
  | Other _ _ => cases h; exact ⟨[], rfl⟩

theorem source2source_VisitFunctionDecl_emits (R : Rewriter) (f : FunctionInfo)
    (ps : List Decl) (b : Option Stmt) (p : Bool × Rewriter)
    (h : source2source.VisitFunctionDecl R f ps b = some p) :
    ∃ edits, R.InsertTexts edits = some p.2 := by
  cases b with
  | none => cases h; exact ⟨[], rfl⟩
  | some FuncBody =>
    simp only [source2source.VisitFunctionDecl] at h
    obtain ⟨R1, h1, h⟩ := Option.bind_eq_some.1 h
    obtain ⟨R2, h2, h⟩ := Option.bind_eq_some.1 h
    cases h
    exact emits_trans _ _ _ (emits_InsertText_snd _ _ _ _ h1) (emits_InsertText_snd _ _ _ _ h2)

theorem TRY_TO_emits (R : Rewriter) (r : Option (Bool × Rewriter))
    (k : Rewriter → Option (Bool × Rewriter)) (p : Bool × Rewriter)
    (h : TRY_TO r k = some p)
    (hr : ∀ q, r = some q → ∃ edits, R.InsertTexts edits = some q.2)
    (hk : ∀ R1 q, k R1 = some q → ∃ edits, R1.InsertTexts edits = some q.2) :
    ∃ edits, R.InsertTexts edits = some p.2 := by
  obtain ⟨q, hq, hp | hp⟩ := TRY_TO_eq_some r k p h
  · subst hp
    exact hr _ hq
  · exact emits_trans _ _ _ (hr _ hq) (hk _ _ hp)

mutual
theorem TraverseStmt_emits (V : ASTVisitor)
    (hS : ∀ R s p, V.VisitStmt R s = some p → ∃ edits, R.InsertTexts edits = some p.2)
    (hF : ∀ R f ps b p, V.VisitFunctionDecl R f ps b = some p →
      ∃ edits, R.InsertTexts edits = some p.2) :
    ∀ (s : Stmt) (R : Rewriter) (p : Bool × Rewriter), TraverseStmt V s R = some p →
      ∃ edits, R.InsertTexts edits = some p.2
  | .BinaryOperator l Opc LHS RHS, R, p, h => by
    simp only [TraverseStmt] at h
    exact TRY_TO_emits R _ _ p h (fun q hq => hS _ _ _ hq) fun R1 q hq =>
      TRY_TO_emits R1 _ _ q hq (fun q2 hq2 => TraverseStmt_emits V hS hF LHS R1 q2 hq2)
        fun R2 q2 hq2 => TraverseStmt_emits V hS hF RHS R2 q2 hq2
  | .IfStmt l Cond Then Else, R, p, h => by
    simp only [TraverseStmt] at h
    exact TRY_TO_emits R _ _ p h (fun q hq => hS _ _ _ hq) fun R1 q hq =>
      TRY_TO_emits R1 _ _ q hq (fun q2 hq2 => TraverseStmt_emits V hS hF Cond R1 q2 hq2)
        fun R2 q2 hq2 =>
          TRY_TO_emits R2 _ _ q2 hq2
            (fun q3 hq3 => TraverseStmt_emits V hS hF Then R2 q3 hq3)
            fun R3 q3 hq3 => TraverseOptStmt_emits V hS hF Else R3 q3 hq3
  | .DeclStmt l decls, R, p, h => by
    simp only [TraverseStmt] at h
    exact TRY_TO_emits R _ _ p h (fun q hq => hS _ _ _ hq) fun R1 q hq =>
      TraverseDecls_emits V hS hF decls R1 q hq
  | .Other l children, R, p, h => by
    simp only [TraverseStmt] at h
    exact TRY_TO_emits R _ _ p h (fun q hq => hS _ _ _ hq) fun R1 q hq =>
      TraverseStmts_emits V hS hF children R1 q hq
theorem TraverseOptStmt_emits (V : ASTVisitor)
    (hS : ∀ R s p, V.VisitStmt R s = some p → ∃ edits, R.InsertTexts edits = some p.2)
    (hF : ∀ R f ps b p, V.VisitFunctionDecl R f ps b = some p →
      ∃ edits, R.InsertTexts edits = some p.2) :
    ∀ (s : Option Stmt) (R : Rewriter) (p : Bool × Rewriter), TraverseOptStmt V s R = some p →
      ∃ edits, R.InsertTexts edits = some p.2
  | none, R, p, h => by
    simp only [TraverseOptStmt, Option.some.injEq] at h
    subst h
    exact ⟨[], rfl⟩
  | some s, R, p, h => by
    simp only [TraverseOptStmt] at h
    exact TraverseStmt_emits V hS hF s R p h
theorem TraverseStmts_emits (V : ASTVisitor)
    (hS : ∀ R s p, V.VisitStmt R s = some p → ∃ edits, R.InsertTexts edits = some p.2)
    (hF : ∀ R f ps b p, V.VisitFunctionDecl R f ps b = some p →
      ∃ edits, R.InsertTexts edits = some p.2) :
    ∀ (ss : List Stmt) (R : Rewriter) (p : Bool × Rewriter), TraverseStmts V ss R = some p →
      ∃ edits, R.InsertTexts edits = some p.2
  | [], R, p, h => by
    simp only [TraverseStmts, Option.some.injEq] at h
    subst h
    exact ⟨[], rfl⟩
  | s :: ss, R, p, h => by
    simp only [TraverseStmts] at h
    exact TRY_TO_emits R _ _ p h (fun q hq => TraverseStmt_emits V hS hF s R q hq)
      fun R1 q hq => TraverseStmts_emits V hS hF ss R1 q hq
theorem TraverseDecl_emits (V : ASTVisitor)
    (hS : ∀ R s p, V.VisitStmt R s = some p → ∃ edits, R.InsertTexts edits = some p.2)
    (hF : ∀ R f ps b p, V.VisitFunctionDecl R f ps b = some p →
      ∃ edits, R.InsertTexts edits = some p.2) :
    ∀ (d : Decl) (R : Rewriter) (p : Bool × Rewriter), TraverseDecl V d R = some p →
      ∃ edits, R.InsertTexts edits = some p.2
  | .FunctionDecl info Params Body, R, p, h => by
    simp only [TraverseDecl] at h
    exact TRY_TO_emits R _ _ p h (fun q hq => hF _ _ _ _ _ hq) fun R1 q hq =>
      TRY_TO_emits R1 _ _ q hq (fun q2 hq2 => TraverseDecls_emits V hS hF Params R1 q2 hq2)
        fun R2 q2 hq2 => by
          split at hq2
          · exact TraverseOptStmt_emits V hS hF Body R2 q2 hq2
          · simp only [Option.some.injEq] at hq2
            subst hq2
            exact ⟨[], rfl⟩
  | .Other stmts decls, R, p, h => by
    simp only [TraverseDecl] at h
    exact TRY_TO_emits R _ _ p h (fun q hq => TraverseStmts_emits V hS hF stmts R q hq)
      fun R1 q hq => TraverseDecls_emits V hS hF decls R1 q hq
theorem TraverseDecls_emits (V : ASTVisitor)
    (hS : ∀ R s p, V.VisitStmt R s = some p → ∃ edits, R.InsertTexts edits = some p.2)
    (hF : ∀ R f ps b p, V.VisitFunctionDecl R f ps b = some p →
      ∃ edits, R.InsertTexts edits = some p.2) :
    ∀ (ds : List Decl) (R : Rewriter) (p : Bool × Rewriter), TraverseDecls V ds R = some p →
      ∃ edits, R.InsertTexts edits = some p.2
  | [], R, p, h => by
    simp only [TraverseDecls, Option.some.injEq] at h
    subst h
    exact ⟨[], rfl⟩
  | d :: ds, R, p, h => by
    simp only [TraverseDecls] at h
    exact TRY_TO_emits R _ _ p h (fun q hq => TraverseDecl_emits V hS hF d R q hq)
      fun R1 q hq => TraverseDecls_emits V hS hF ds R1 q hq
end

theorem HandleTopLevelDecl_emits (V : ASTVisitor)
    (hS : ∀ R s p, V.VisitStmt R s = some p → ∃ edits, R.InsertTexts edits = some p.2)
    (hF : ∀ R f ps b p, V.VisitFunctionDecl R f ps b = some p →
      ∃ edits, R.InsertTexts edits = some p.2)
    (DR : List Decl) : ∀ (R R2 : Rewriter), HandleTopLevelDecl V DR R = some R2 →
      ∃ edits, R.InsertTexts edits = some R2 := by
  induction DR with
  | nil =>
    intro R R2 h
    simp only [HandleTopLevelDecl, Option.some.injEq] at h
    subst h
    exact ⟨[], rfl⟩
  | cons b DR ih =>
    intro R R2 h
    simp only [HandleTopLevelDecl] at h
    cases hb : TraverseDecl V b R with
    | none => simp [hb] at h
    | some q =>
      simp only [hb] at h
      exact emits_trans _ _ _ (TraverseDecl_emits V hS hF b R q hb) (ih _ _ h)

theorem ParseAST_emits (V : ASTVisitor)
    (hS : ∀ R s p, V.VisitStmt R s = some p → ∃ edits, R.InsertTexts edits = some p.2)
    (hF : ∀ R f ps b p, V.VisitFunctionDecl R f ps b = some p →
      ∃ edits, R.InsertTexts edits = some p.2)
    (TU : List (List Decl)) : ∀ (R R2 : Rewriter), ParseAST V TU R = some R2 →
      ∃ edits, R.InsertTexts edits = some R2 := by
  induction TU with
  | nil =>
    intro R R2 h
    simp only [ParseAST, Option.some.injEq] at h
    subst h
    exact ⟨[], rfl⟩
  | cons DR TU ih =>
    intro R R2 h
    simp only [ParseAST] at h
    cases hb : HandleTopLevelDecl V DR R with
    | none => simp [hb] at h
    | some R1 =>
      simp only [hb] at h
      exact emits_trans _ _ _ (HandleTopLevelDecl_emits V hS hF DR R R1 hb) (ih _ _ h)

theorem insertedText_of_not_mem (MB : List Char) (o : Nat) (Str : String)
    (h : '\n' ∉ Str.data) : insertedText MB (.file o, Str) = Str.data := by
  simp only [insertedText]
  exact indentLines_of_not_mem _ _ h

theorem setSourceMgr_getEditBuffer (file : String) :
    (Rewriter.setSourceMgr file).getEditBuffer = ⟨file.data, []⟩ := rfl

theorem materialize_no_fragments (cs : List Char) :
    (RewriteBuffer.mk cs []).materialize = cs := by
  have : (RewriteBuffer.mk cs []).fragmentsAt = fun _ => [] := by
    funext o
    simp [RewriteBuffer.fragmentsAt]
  simp only [RewriteBuffer.materialize, this, splice_nil_fragments]

/-- C9, as amended: what is spliced in for an edit is the edit's text with the indentation of
the source line at the edit's offset added after each line feed (`indentNewLines` is on in
every call); the original bytes are preserved. -/
theorem original_bytes_preserved :
    (∀ (file : String) (edits : List (SourceLocation × String)),
      (∀ e ∈ edits, ∀ o, e.1 = .file o → o ≤ file.length) →
      ∃ R2, (Rewriter.setSourceMgr file).InsertTexts edits = some R2 ∧
        R2.getEditBuffer.Original = file.data ∧
        R2.getEditBuffer.materialize =
          splice (fun o => ((edits.filter (fun e => e.1 = .file o)).map
            (insertedText file.data)).flatten) 0 file.data ∧
        R2.getEditBuffer.materializeTagged.map Prod.snd = R2.getEditBuffer.materialize ∧
        (R2.getEditBuffer.materializeTagged.filter (fun p => !p.1)).map Prod.snd
          = file.data ∧
        R2.getEditBuffer.materialize.length =
          file.length + (edits.map (fun e => (insertedText file.data e).length)).sum) ∧
    (∀ (MB : List Char) (o : Nat) (Str : String), '\n' ∉ Str.data →
      insertedText MB (.file o, Str) = Str.data) ∧
    (∀ (file : String) (TU : List (List Decl)) (R2 : Rewriter),
      ParseAST add_text_via_rewriter.MyASTVisitor TU (Rewriter.setSourceMgr file) = some R2 →
      ∃ edits, (∀ e ∈ edits, ∀ o, e.1 = .file o → o ≤ file.length) ∧
        (Rewriter.setSourceMgr file).InsertTexts edits = some R2) ∧
    (∀ (file : String) (TU : List (List Decl)) (R2 : Rewriter),
      ParseAST source2source.MyASTVisitor TU (Rewriter.setSourceMgr file) = some R2 →
      ∃ edits, (∀ e ∈ edits, ∀ o, e.1 = .file o → o ≤ file.length) ∧
        (Rewriter.setSourceMgr file).InsertTexts edits = some R2) := by
  refine ⟨?_, insertedText_of_not_mem, ?_, ?_⟩
  · intro file edits hr
    obtain ⟨R2, h1, _, h3, h4, h5⟩ := InsertTexts_spec edits (Rewriter.setSourceMgr file) hr
    rw [setSourceMgr_getEditBuffer] at h3 h4 h5
    have hS : (Rewriter.setSourceMgr file).SourceMgr = file.data := rfl
    simp only [hS] at h4 h5
    rw [materialize_no_fragments] at h5
    refine ⟨R2, h1, h3, ?_, ?_, ?_, h5⟩
    · unfold RewriteBuffer.materialize
      rw [h3]
      apply splice_congr
      intro x _ _
      rw [h4 x]
      simp [RewriteBuffer.fragmentsAt]
    · exact spliceTagged_map_snd _ _ _
    · unfold RewriteBuffer.materializeTagged
      rw [spliceTagged_filter_original, h3]
  · intro file TU R2 h
    obtain ⟨edits, he⟩ := ParseAST_emits add_text_via_rewriter.MyASTVisitor
      add_text_VisitStmt_emits add_text_VisitFunctionDecl_emits TU _ _ h
    exact ⟨edits, InsertTexts_in_range edits _ _ he, he⟩
  · intro file TU R2 h
    obtain ⟨edits, he⟩ := ParseAST_emits source2source.MyASTVisitor
      source2source_VisitStmt_emits source2source_VisitFunctionDecl_emits TU _ _ h
    exact ⟨edits, InsertTexts_in_range edits _ _ he, he⟩

/-- C9, as stated, fails: the comment in front of an indented then-arm is inserted together
with the four blanks of the line's indentation, so the output is four bytes longer than the
original plus the three edit texts. -/
theorem inserted_text_is_indented :
    source2source.main "void f()\x7b\n  if(c)\n    x;\n\x7d"
        [[.FunctionDecl ⟨"f", "void", .file 0, .file 7, true⟩ []
          (some (.Other ⟨.file 8, .file 25, .file 8⟩
            [.IfStmt ⟨.file 12, .file 23, .file 12⟩ (leafExpr 15 15)
              (.Other ⟨.file 22, .file 23, .file 22⟩ [leafExpr 22 22]) none]))]]
      = some ("// Begin function f returning void\nvoid f()\x7b\n  if(c)\n    " ++
          "// the 'if' part\n    x;\n\x7d\n// End function f\n") ∧
    ("// Begin function f returning void\nvoid f()\x7b\n  if(c)\n    " ++
          "// the 'if' part\n    x;\n\x7d\n// End function f\n").length
      ≠ "void f()\x7b\n  if(c)\n    x;\n\x7d".length +
        ("// Begin function f returning void\n".length + "// the 'if' part\n".length +
          "\n// End function f\n".length) := by
  refine ⟨by decide, by decide⟩

theorem outputFrom_head (B : RewriteBuffer) (o : Nat) (c : Char) (cs : List Char)
    (h : B.Original.drop o = c :: cs) : ∃ rest, B.outputFrom o = c :: rest := by
  unfold RewriteBuffer.outputFrom
  rw [h]
  simp only [splice, Nat.lt_irrefl, if_false, List.nil_append]
  exact ⟨_, rfl⟩

theorem InsertTexts_final_output (file : String) (edits : List (SourceLocation × String))
    (hr : ∀ e ∈ edits, ∀ x, e.1 = .file x → x ≤ file.length) :
    ∃ R2, (Rewriter.setSourceMgr file).InsertTexts edits = some R2 ∧
      ∀ o, o ≤ file.length →
        R2.getEditBuffer.materialize =
          R2.getEditBuffer.outputBefore o ++
            ((edits.filter (fun e => e.1 = .file o)).map (insertedText file.data)).flatten ++
            R2.getEditBuffer.outputFrom o ∧
        (∀ c cs, file.data.drop o = c :: cs →
          ∃ rest, R2.getEditBuffer.outputFrom o = c :: rest) ∧
        (file.data.drop o = [] → R2.getEditBuffer.outputFrom o = []) := by
  obtain ⟨R2, h1, _, h3, h4, _⟩ := InsertTexts_spec edits (Rewriter.setSourceMgr file) hr
  rw [setSourceMgr_getEditBuffer] at h3 h4
  have hS : (Rewriter.setSourceMgr file).SourceMgr = file.data := rfl
  simp only [hS] at h4
  refine ⟨R2, h1, fun o ho => ⟨?_, ?_, ?_⟩⟩
  · rw [materialize_split R2.getEditBuffer o (by rw [h3]; exact ho), h4 o]
    simp [RewriteBuffer.fragmentsAt]
  · intro c cs hc
    apply outputFrom_head
    rw [h3]
    exact hc
  · intro hc
    unfold RewriteBuffer.outputFrom
    rw [h3, hc]
    simp only [splice, Nat.lt_irrefl, if_false]

theorem filter_two_edits (f : SourceLocation × String → List Char)
    (pre mid post : List (SourceLocation × String)) (o : Nat) (A B : String)
    (hmid : ∀ e ∈ mid, e.1 ≠ .file o) :
    (((pre ++ (.file o, A) :: (mid ++ (.file o, B) :: post)).filter
        (fun e => e.1 = .file o)).map f).flatten =
      ((pre.filter (fun e => e.1 = .file o)).map f).flatten ++ f (.file o, A) ++
        f (.file o, B) ++ ((post.filter (fun e => e.1 = .file o)).map f).flatten := by
  have hmid0 : mid.filter (fun e => e.1 = SourceLocation.file o) = [] := by
    rw [List.filter_eq_nil_iff]
    intro e he
    simp only [decide_eq_true_eq]
    exact hmid e he
  simp [List.filter_append, List.filter_cons, hmid0]

/-- C8, as amended: in the output of a whole run of insertions, as a traversal of either tool
makes it, the texts of all edits that land at one offset stand at that splice point in
emission order, each as inserted (with the line's indentation after its line feeds), with
nothing between them, behind the part of the output that belongs to the smaller offsets and in
front of the original bytes from that offset on.  So two edits of one offset stand side by
side when no edit of that offset is emitted between them, after the texts of the earlier and
before the texts of the later edits of that offset.  For `void f(){}void g(){}` the end comment
of `f` is directly followed by the begin comment of `g` and that by `void g(){}`; for
`void f(){}void f();` three edits land at offset 10, in emission order. -/
theorem same_offset_order :
    (∀ (file : String) (edits : List (SourceLocation × String)),
      (∀ e ∈ edits, ∀ x, e.1 = .file x → x ≤ file.length) →
      ∃ R2, (Rewriter.setSourceMgr file).InsertTexts edits = some R2 ∧
        ∀ o, o ≤ file.length →
          R2.getEditBuffer.materialize =
            R2.getEditBuffer.outputBefore o ++
              ((edits.filter (fun e => e.1 = .file o)).map
                (insertedText file.data)).flatten ++
              R2.getEditBuffer.outputFrom o ∧
          (∀ c cs, file.data.drop o = c :: cs →
            ∃ rest, R2.getEditBuffer.outputFrom o = c :: rest) ∧
          (file.data.drop o = [] → R2.getEditBuffer.outputFrom o = [])) ∧
    (∀ (file : String) (pre mid post : List (SourceLocation × String)) (o : Nat)
      (A B : String),
      (∀ e ∈ pre ++ (.file o, A) :: (mid ++ (.file o, B) :: post),
        ∀ x, e.1 = .file x → x ≤ file.length) →
      (∀ e ∈ mid, e.1 ≠ .file o) →
      ∃ R2, (Rewriter.setSourceMgr file).InsertTexts
            (pre ++ (.file o, A) :: (mid ++ (.file o, B) :: post)) = some R2 ∧
        R2.getEditBuffer.materialize =
          R2.getEditBuffer.outputBefore o ++
            (((pre.filter (fun e => e.1 = .file o)).map (insertedText file.data)).flatten ++
              insertedText file.data (.file o, A) ++ insertedText file.data (.file o, B) ++
              ((post.filter (fun e => e.1 = .file o)).map
                (insertedText file.data)).flatten) ++
            R2.getEditBuffer.outputFrom o ∧
        (∀ c cs, file.data.drop o = c :: cs →
          ∃ rest, R2.getEditBuffer.outputFrom o = c :: rest)) ∧
    (∀ (file : String) (TU : List (List Decl)) (R2 : Rewriter),
      ParseAST add_text_via_rewriter.MyASTVisitor TU (Rewriter.setSourceMgr file) = some R2 →
      ∃ edits, (∀ e ∈ edits, ∀ x, e.1 = .file x → x ≤ file.length) ∧
        (Rewriter.setSourceMgr file).InsertTexts edits = some R2) ∧
    (∀ (file : String) (TU : List (List Decl)) (R2 : Rewriter),
      ParseAST source2source.MyASTVisitor TU (Rewriter.setSourceMgr file) = some R2 →
      ∃ edits, (∀ e ∈ edits, ∀ x, e.1 = .file x → x ≤ file.length) ∧
        (Rewriter.setSourceMgr file).InsertTexts edits = some R2) ∧
    source2source.main "void f()\x7b\x7dvoid g()\x7b\x7d"
        [[.FunctionDecl ⟨"f", "void", .file 0, .file 7, true⟩ []
            (some (.Other ⟨.file 8, .file 9, .file 8⟩ []))],
         [.FunctionDecl ⟨"g", "void", .file 10, .file 17, true⟩ []
            (some (.Other ⟨.file 18, .file 19, .file 18⟩ []))]]
      = some ("// Begin function f returning void\nvoid f()\x7b\x7d" ++
          "\n// End function f\n" ++ "// Begin function g returning void\n" ++
          "void g()\x7b\x7d" ++ "\n// End function g\n") ∧
    source2source.main "void f()\x7b\x7dvoid f();"
        [[.FunctionDecl ⟨"f", "void", .file 0, .file 7, true⟩ []
            (some (.Other ⟨.file 8, .file 9, .file 8⟩ []))],
         [.FunctionDecl ⟨"f", "void", .file 10, .file 17, false⟩ []
            (some (.Other ⟨.file 8, .file 9, .file 8⟩ []))]]
      = some ("// Begin function f returning void\nvoid f()\x7b\x7d" ++
          "\n// End function f\n" ++ "// Begin function f returning void\n" ++
          "\n// End function f\n" ++ "void f();") := by
  refine ⟨InsertTexts_final_output, ?_, ?_, ?_, by decide, by decide⟩
  · intro file pre mid post o A B hr hmid
    have ho : o ≤ file.length :=
      hr (.file o, A) (List.mem_append_right _ (List.mem_cons_self _ _)) o rfl
    obtain ⟨R2, h1, h2⟩ := InsertTexts_final_output file _ hr
    obtain ⟨h3, h4, _⟩ := h2 o ho
    refine ⟨R2, h1, ?_, h4⟩
    rw [h3, filter_two_edits (insertedText file.data) pre mid post o A B hmid]
  · intro file TU R2 h
    obtain ⟨edits, he⟩ := ParseAST_emits add_text_via_rewriter.MyASTVisitor
      add_text_VisitStmt_emits add_text_VisitFunctionDecl_emits TU _ _ h
    exact ⟨edits, InsertTexts_in_range edits _ _ he, he⟩
  · intro file TU R2 h
    obtain ⟨edits, he⟩ := ParseAST_emits source2source.MyASTVisitor
      source2source_VisitStmt_emits source2source_VisitFunctionDecl_emits TU _ _ h
    exact ⟨edits, InsertTexts_in_range edits _ _ he, he⟩

/-- C8, as stated, fails twice.  On a line that starts with a blank the end comment of `f`
and the begin comment of `g` are inserted with that blank after each of their line feeds, so
the two texts themselves do not stand side by side in the output.  And in
`void f(){}void f();` three edits land at offset 10: the two end comments have the begin
comment of the redeclaration between them, and the first end comment and that begin comment
are followed by the second end comment, not by the original bytes. -/
theorem same_offset_texts_not_side_by_side :
    source2source.main " void f()\x7b\x7dvoid g()\x7b\x7d"
        [[.FunctionDecl ⟨"f", "void", .file 1, .file 8, true⟩ []
            (some (.Other ⟨.file 9, .file 10, .file 9⟩ []))],
         [.FunctionDecl ⟨"g", "void", .file 11, .file 18, true⟩ []
            (some (.Other ⟨.file 19, .file 20, .file 19⟩ []))]]
      = some (" // Begin function f returning void\n void f()\x7b\x7d" ++
          "\n // End function f\n " ++ "// Begin function g returning void\n " ++
          "void g()\x7b\x7d" ++ "\n // End function g\n ") ∧
    ¬ (("\n// End function f\n" ++ "// Begin function g returning void\n").data <:+:
        (" // Begin function f returning void\n void f()\x7b\x7d" ++
          "\n // End function f\n " ++ "// Begin function g returning void\n " ++
          "void g()\x7b\x7d" ++ "\n // End function g\n ").data) ∧
    source2source.main "void f()\x7b\x7dvoid f();"
        [[.FunctionDecl ⟨"f", "void", .file 0, .file 7, true⟩ []
            (some (.Other ⟨.file 8, .file 9, .file 8⟩ []))],
         [.FunctionDecl ⟨"f", "void", .file 10, .file 17, false⟩ []
            (some (.Other ⟨.file 8, .file 9, .file 8⟩ []))]]
      = some ("// Begin function f returning void\nvoid f()\x7b\x7d" ++
          "\n// End function f\n" ++ "// Begin function f returning void\n" ++
          "\n// End function f\n" ++ "void f();") ∧
    ¬ (("\n// End function f\n" ++ "\n// End function f\n").data <:+:
        ("// Begin function f returning void\nvoid f()\x7b\x7d" ++
          "\n// End function f\n" ++ "// Begin function f returning void\n" ++
          "\n// End function f\n" ++ "void f();").data) ∧
    ¬ (("\n// End function f\n" ++ "// Begin function f returning void\n" ++
          "void f();").data <:+:
        ("// Begin function f returning void\nvoid f()\x7b\x7d" ++
          "\n// End function f\n" ++ "// Begin function f returning void\n" ++
          "\n// End function f\n" ++ "void f();").data) := by
  refine ⟨by decide, ?_, by decide, ?_, ?_⟩
  · set_option maxRecDepth 100000 in decide
  · set_option maxRecDepth 100000 in decide
  · set_option maxRecDepth 100000 in decide

/-! ### Instances of the general statements -/

theorem additive_rewrite_witness :
    BinaryOperatorKind.BO_Sub.isAdditiveOp = true ∧
    (leafExpr 4 4).getExprLoc = .file 4 ∧
    add_text_via_rewriter.VisitStmt (Rewriter.setSourceMgr "a - b")
        (.BinaryOperator ⟨.file 0, .file 4, .file 2⟩ .BO_Sub (leafExpr 0 0) (leafExpr 4 4)) =
      ((Rewriter.setSourceMgr "a - b").getEditBuffer.InsertText (4 + 1) " * d".data true).map
        (fun B => (true, ⟨(Rewriter.setSourceMgr "a - b").SourceMgr, some B⟩)) :=
  ⟨by decide, rfl, additive_rewrite.1 _ _ _ _ _ 4 (by decide) rfl⟩

theorem multiplicative_rewrite_witness :
    BinaryOperatorKind.BO_Div.isMultiplicativeOp = true ∧
    (leafExpr 0 0).getExprLoc = .file 0 ∧ (leafExpr 4 4).getExprLoc = .file 4 ∧
    add_text_via_rewriter.VisitStmt (Rewriter.setSourceMgr "a / b")
        (.BinaryOperator ⟨.file 0, .file 4, .file 2⟩ .BO_Div (leafExpr 0 0) (leafExpr 4 4)) =
      (((Rewriter.setSourceMgr "a / b").getEditBuffer.InsertText 0 "(".data true).bind
        fun B => B.InsertText (4 + 1) ") + d".data true).map
        (fun B => (true, ⟨(Rewriter.setSourceMgr "a / b").SourceMgr, some B⟩)) :=
  ⟨by decide, rfl, rfl, multiplicative_rewrite.1 _ _ _ _ _ 0 4 (by decide) rfl rfl⟩

theorem signature_augmentation_witness :
    (FunctionInfo.mk "f" "int" (.file 0) (.file 6) true).RParenLoc = .file 6 ∧
    add_text_via_rewriter.VisitFunctionDecl (Rewriter.setSourceMgr "int f()\x7b\x7d")
        ⟨"f", "int", .file 0, .file 6, true⟩ [] (some (.Other ⟨.file 7, .file 8, .file 7⟩ [])) =
      ((Rewriter.setSourceMgr "int f()\x7b\x7d").getEditBuffer.InsertText 6
        (if ([] : List Decl).length = 0 then "bool b" else ", bool b").data true).map
        (fun B => (true, ⟨(Rewriter.setSourceMgr "int f()\x7b\x7d").SourceMgr, some B⟩)) :=
  ⟨rfl, signature_augmentation.1 _ _ _ _ 6 rfl⟩

theorem right_edit_ignores_operand_length_witness :
    (leafExpr 4 4).getExprLoc = (leafExpr 4 5).getExprLoc ∧
    add_text_via_rewriter.VisitStmt (Rewriter.setSourceMgr "a + bc")
        (.BinaryOperator ⟨.file 0, .file 4, .file 2⟩ .BO_Add (leafExpr 0 0) (leafExpr 4 4)) =
      add_text_via_rewriter.VisitStmt (Rewriter.setSourceMgr "a + bc")
        (.BinaryOperator ⟨.file 0, .file 5, .file 2⟩ .BO_Add (leafExpr 0 0) (leafExpr 4 5)) :=
  ⟨rfl, right_edit_ignores_operand_length.1 _ _ _ _ _ _ _ rfl⟩

theorem no_edit_run_dereferences_null_witness :
    (∀ DR ∈ [[Decl.Other [leafExpr 8 8] []]], Decl.noMatchList source2source.matchesStmt
        source2source.matchesFunctionDecl DR = true) ∧
    source2source.main "int x = 1;" [[.Other [leafExpr 8 8] []]] = none :=
  have h : ∀ DR ∈ [[Decl.Other [leafExpr 8 8] []]], Decl.noMatchList
      source2source.matchesStmt source2source.matchesFunctionDecl DR = true := by
    intro DR hDR
    rw [List.mem_singleton] at hDR
    subst hDR
    rfl
  ⟨h, (no_edit_run_dereferences_null.2.1 "int x = 1;" _ h).2.2⟩

theorem if_annotation_witness :
    (Stmt.Other ⟨.file 5, .file 6, .file 5⟩ []).getLocStart = .file 5 ∧
    5 ≤ (Rewriter.setSourceMgr "if(c)y;").getEditBuffer.Original.length ∧
    ∃ R2, source2source.VisitStmt (Rewriter.setSourceMgr "if(c)y;")
        (.IfStmt ⟨.file 0, .file 6, .file 0⟩ (leafExpr 3 3)
          (.Other ⟨.file 5, .file 6, .file 5⟩ []) none) = some (true, R2) ∧
      R2.getEditBuffer.fragmentsAt 5 =
        (Rewriter.setSourceMgr "if(c)y;").getEditBuffer.fragmentsAt 5 ++
          (Rewriter.setSourceMgr "if(c)y;").indented 5 "// the 'if' part\n".data true :=
  ⟨rfl, by decide, if_annotation.2.2.2 _ _ _ _ 5 rfl (by decide)⟩

theorem paired_edits_are_independent_witness :
    BinaryOperatorKind.BO_Mul.isMultiplicativeOp = true ∧
    add_text_via_rewriter.VisitStmt (Rewriter.setSourceMgr "A * b")
        (.BinaryOperator ⟨.expansion 0, .file 4, .file 2⟩ .BO_Mul
          (.Other ⟨.expansion 0, .expansion 0, .expansion 0⟩ []) (leafExpr 4 4)) =
      ((Rewriter.setSourceMgr "A * b").getEditBuffer.InsertText (4 + 1) ") + d".data true).map
        (fun B => (true, ⟨(Rewriter.setSourceMgr "A * b").SourceMgr, some B⟩)) :=
  ⟨by decide, paired_edits_are_independent.2.2.1 _ _ _ _ _ 0 4 (by decide) rfl rfl⟩

theorem same_offset_order_witness :
    (∀ e ∈ [(SourceLocation.file 0, "// Begin function f returning void\n")] ++
        (.file 10, "\n// End function f\n") ::
          ([] ++ (.file 10, "// Begin function g returning void\n") ::
            [(.file 20, "\n// End function g\n")]),
      ∀ x, e.1 = .file x → x ≤ "void f()\x7b\x7dvoid g()\x7b\x7d".length) ∧
    ∃ R2, (Rewriter.setSourceMgr "void f()\x7b\x7dvoid g()\x7b\x7d").InsertTexts
          ([(.file 0, "// Begin function f returning void\n")] ++
            (.file 10, "\n// End function f\n") ::
              ([] ++ (.file 10, "// Begin function g returning void\n") ::
                [(.file 20, "\n// End function g\n")])) = some R2 ∧
      ∀ c cs, "void f()\x7b\x7dvoid g()\x7b\x7d".data.drop 10 = c :: cs →
        ∃ rest, R2.getEditBuffer.outputFrom 10 = c :: rest := by
  have hr : ∀ e ∈ [(SourceLocation.file 0, "// Begin function f returning void\n")] ++
        (.file 10, "\n// End function f\n") ::
          ([] ++ (.file 10, "// Begin function g returning void\n") ::
            [(.file 20, "\n// End function g\n")]),
      ∀ x, e.1 = .file x → x ≤ "void f()\x7b\x7dvoid g()\x7b\x7d".length := by
    intro e he x hx
    simp only [List.singleton_append, List.nil_append, List.mem_cons, List.mem_singleton,
      List.not_mem_nil, or_false] at he
    rcases he with rfl | rfl | rfl | rfl <;> cases hx <;> decide
  obtain ⟨R2, h1, _, h3⟩ := same_offset_order.2.1 "void f()\x7b\x7dvoid g()\x7b\x7d"
    [(.file 0, "// Begin function f returning void\n")] []
    [(.file 20, "\n// End function g\n")] 10 "\n// End function f\n"
    "// Begin function g returning void\n" hr (fun e he => by cases he)
  exact ⟨hr, R2, h1, h3⟩

theorem original_bytes_preserved_witness :
    (∀ e ∈ [(SourceLocation.file 5, " * d")], ∀ o, e.1 = .file o → o ≤ "a + b".length) ∧
    ∃ R2, (Rewriter.setSourceMgr "a + b").InsertTexts [(.file 5, " * d")] = some R2 ∧
      R2.getEditBuffer.Original = "a + b".data ∧
      R2.getEditBuffer.materialize.length = "a + b".length +
        ([(SourceLocation.file 5, " * d")].map
          (fun e => (insertedText "a + b".data e).length)).sum := by
  have h : ∀ e ∈ [(SourceLocation.file 5, " * d")], ∀ o, e.1 = .file o →
      o ≤ "a + b".length := by
    intro e he o ho
    rw [List.mem_singleton] at he
    subst he
    cases ho
    decide
  obtain ⟨R2, h1, h2, _, _, _, h6⟩ := original_bytes_preserved.1 "a + b" _ h
  exact ⟨h, R2, h1, h2, h6⟩

end ClangTutorial
